import Mathlib

/-!
The program `ThreadedLaplacian.c`.

A shallow embedding of `src/ThreadedLaplacian.c` (a PPM reader and writer and a
row-partitioned 3x3 Laplacian convolution) and theorems about it.

Conventions of the embedding.

* A buffer of `PPMPixel` is a `List PPMPixel`; an access outside the buffer is
  the failure `none`, as is a division by zero.
* `unsigned long` arithmetic is arithmetic modulo `2 ^ 64` (`toULong`); the
  conversion of a value to `int` is `toCInt` (two's complement, 32 bit); the
  store of an `int` in an `unsigned char` is `toUChar`.
* The `int` loop counters run over `List.range`; this is what the C loops do
  for dimensions up to `INT_MAX`, the range of the counters.
* The worker threads of `apply_filters` run one after the other, in the order
  of creation, on the shared result buffer.
-/

namespace ThreadedLaplacian

/-! ## Data model -/

/-- One pixel: the three `unsigned char` channels of `PPMPixel`. -/
structure PPMPixel where
  r : Nat
  g : Nat
  b : Nat
deriving DecidableEq, Repr

/-- The argument record of a worker thread (`struct parameter`). -/
structure parameter where
  image : List PPMPixel
  result : List PPMPixel
  w : Nat
  h : Nat
  start : Nat
  size : Nat
deriving Repr

/-- The constant `THREADS` of the source. The embedding of `apply_filters` takes
the worker count as the parameter `N`. -/
def THREADS : Nat := 1

/-- The constant `filterWidth`. -/
def filterWidth : Nat := 3

/-- The constant `filterHeight`. -/
def filterHeight : Nat := 3

/-- The constant `RGB_MAX`. -/
def RGB_MAX : Nat := 255

/-- Largest value of the C type `int`. -/
def INT_MAX : Nat := 2147483647

/-- Conversion to `unsigned long`: reduction modulo `2 ^ 64`. -/
def toULong (z : Int) : Int := z % 18446744073709551616

/-- Conversion to `int`: the two's complement value of the low 32 bits. -/
def toCInt (z : Int) : Int := (z + 2147483648) % 4294967296 - 2147483648

/-- Conversion to `unsigned char`: reduction modulo `256`. -/
def toUChar (z : Int) : Nat := (z % 256).toNat

/-! ## threadfn -/

/-- The local array `laplacian[filterWidth][filterHeight]` of `threadfn`. -/
def laplacian : List (List Int) :=
  [[-1, -1, -1],
   [-1,  8, -1],
   [-1, -1, -1]]

/-- The entry `laplacian[filterx][filtery]`. -/
def weight (filterx filtery : Nat) : Int := (laplacian.getD filterx []).getD filtery 0

/-- The column sampled for target column `x` at kernel column `filterx`:
`int imagex = (x - (filterWidth/2) + filterx + thr_params.w) % thr_params.w`.
The sum `x - 1 + filterx` is an `int`, converted to `unsigned long` to be added
to `w`. -/
def imagex (w x filterx : Nat) : Option Int :=
  if w = 0 then none
  else some (toCInt (toULong (toULong ((x : Int) - ((filterWidth / 2 : Nat) : Int) + filterx) + w) % w))

/-- The row sampled for target row `y` at kernel row `filtery`:
`int imagey = (y - (filterHeight/2) + filtery + thr_params.h) % thr_params.h`. -/
def imagey (h y filtery : Nat) : Option Int :=
  if h = 0 then none
  else some (toCInt (toULong (toULong ((y : Int) - ((filterHeight / 2 : Nat) : Int) + filtery) + h) % h))

/-- The index `imagey * thr_params.w + imagex`, computed in `unsigned long`. -/
def imageIndex (w : Nat) (ix iy : Int) : Nat := (toULong (iy * w + ix)).toNat

/-- The read `thr_params.image[imagey * thr_params.w + imagex]`. -/
def sample (image : List PPMPixel) (w h x y filterx filtery : Nat) : Option PPMPixel := do
  let ix ← imagex w x filterx
  let iy ← imagey h y filtery
  image[imageIndex w ix iy]?

/-- The three `int` accumulators `red`, `green`, `blue`, as integers: for
`unsigned char` channels their values stay within `int`. -/
structure Acc where
  red : Int
  green : Int
  blue : Int
deriving DecidableEq, Repr

/-- The body of the innermost loop: the three `+=` statements. -/
def accumulate (image : List PPMPixel) (w h x y filterx : Nat) (acc : Acc) (filtery : Nat) :
    Option Acc := do
  let px ← sample image w h x y filterx filtery
  some { red := acc.red + px.r * weight filterx filtery
         green := acc.green + px.g * weight filterx filtery
         blue := acc.blue + px.b * weight filterx filtery }

/-- The two kernel loops, `filterx` outside and `filtery` inside, started from
`red = green = blue = 0`. -/
def kernelLoop (image : List PPMPixel) (w h x y : Nat) : Option Acc :=
  (List.range filterWidth).foldlM
    (fun acc filterx => (List.range filterHeight).foldlM (accumulate image w h x y filterx) acc)
    { red := 0, green := 0, blue := 0 }

/-- The two statements `if(v < 0) {v = 0;}  if(v > 255) {v = 255;}`. -/
def clamp (v : Int) : Int :=
  let v1 := if v < 0 then 0 else v
  if v1 > 255 then 255 else v1

/-- The pixel stored for the accumulators: each clamped, then narrowed to
`unsigned char` by the assignment. -/
def clampedPixel (acc : Acc) : PPMPixel :=
  { r := toUChar (clamp acc.red), g := toUChar (clamp acc.green), b := toUChar (clamp acc.blue) }

/-- The pixel computed for the target `(x, y)`. -/
def pixelValue (image : List PPMPixel) (w h x y : Nat) : Option PPMPixel :=
  (kernelLoop image w h x y).map clampedPixel

/-- The write `thr_params.result[y * thr_params.w + x] = ...`. -/
def store (result : List PPMPixel) (idx : Nat) (px : PPMPixel) : Option (List PPMPixel) :=
  if idx < result.length then some (result.set idx px) else none

/-- The index `y * thr_params.w + x`, computed in `unsigned long`. -/
def resultIndex (w x y : Nat) : Nat := (toULong ((y : Int) * w + x)).toNat

/-- The body of the loop over `y`: convolve at `(x, y)` and store. -/
def pixelStep (p : parameter) (x : Nat) (result : List PPMPixel) (y : Nat) :
    Option (List PPMPixel) := do
  let px ← pixelValue p.image p.w p.h x y
  store result (resultIndex p.w x y) px

/-- The thread function: for `x` in `[0, w)` and `y` in `[start, start + size)`
the pixel at `(x, y)` of the result is computed from the image. Returns the
result buffer after the writes. -/
def threadfn (p : parameter) : Option (List PPMPixel) :=
  (List.range p.w).foldlM
    (fun result x => (List.range' p.start p.size).foldlM (pixelStep p x) result)
    p.result

/-! ## apply_filters -/

/-- The local `int work = h / THREADS`. -/
def work (N h : Nat) : Int := toCInt ((h / N : Nat) : Int)

/-- The field `params[i].start = i * work`. -/
def startOf (N h i : Nat) : Nat := (toULong ((i : Int) * work N h)).toNat

/-- The field `params[i].size`: `h - (work * i)` for the last worker and `work`
for the others. -/
def sizeOf (N h i : Nat) : Nat :=
  if (i : Int) = (N : Int) - 1 then (toULong ((h : Int) - toULong (work N h * i))).toNat
  else (toULong (work N h)).toNat

/-- The record `params[i]` filled in by the loop of `apply_filters`. -/
def paramsOf (N : Nat) (image result : List PPMPixel) (w h i : Nat) : parameter :=
  { image := image, result := result, w := w, h := h,
    start := startOf N h i, size := sizeOf N h i }

/-- The filter pass of `apply_filters` with `THREADS = N`: the buffer `mem` is
the memory returned by `malloc(w * h * 3)`, and worker `i` runs `threadfn` on
`params[i]`. The division `h / THREADS` fails for `N = 0`. -/
def apply_filters (N : Nat) (image : List PPMPixel) (w h : Nat) (mem : List PPMPixel) :
    Option (List PPMPixel) :=
  if N = 0 then none
  else (List.range N).foldlM (fun result i => threadfn (paramsOf N image result w h i)) mem

/-! ## The convolution as the specification words it -/

/-- The kernel `K` of the specification: centre weight 8, every other weight -1. -/
def K (fx fy : Nat) : Int := if fx = 1 ∧ fy = 1 then 8 else -1

/-- The pixel `source[((y-1+fy+h) mod h)*w + ((x-1+fx+w) mod w)]` of the
specification. -/
def sourceAt (image : List PPMPixel) (w h x y fx fy : Nat) : PPMPixel :=
  image.getD ((((y : Int) - 1 + fy + h) % h * w + ((x : Int) - 1 + fx + w) % w).toNat)
    { r := 0, g := 0, b := 0 }

/-- The sum over the nine kernel offsets of one channel times `K`. -/
def kernelSum (chan : PPMPixel → Nat) (image : List PPMPixel) (w h x y : Nat) : Int :=
  ∑ fx in Finset.range 3, ∑ fy in Finset.range 3,
    (chan (sourceAt image w h x y fx fy) : Int) * K fx fy

/-- The clamp `clamp_0_255` of the specification. -/
def clamp_0_255 (s : Int) : Int := min 255 (max 0 s)

/-- The pixel the filter puts at `(x, y)`: the clamped kernel sums of the three
channels. -/
def filteredPixel (image : List PPMPixel) (w h x y : Nat) : PPMPixel :=
  clampedPixel { red := kernelSum (fun p => p.r) image w h x y
                 green := kernelSum (fun p => p.g) image w h x y
                 blue := kernelSum (fun p => p.b) image w h x y }

/-! ## Sample inputs -/

/-- The 2 x 2 image whose pixels are all `(100, 100, 100)`. -/
def flat2x2 : List PPMPixel := List.replicate 4 { r := 100, g := 100, b := 100 }

/-- A 3 x 2 image of six different pixels. -/
def sample3x2 : List PPMPixel :=
  [{ r := 1, g := 2, b := 3 }, { r := 10, g := 20, b := 30 }, { r := 7, g := 8, b := 9 },
   { r := 0, g := 0, b := 200 }, { r := 50, g := 60, b := 70 }, { r := 255, g := 255, b := 255 }]

/-- Six cells of memory as `malloc` may return them. -/
def junk6 : List PPMPixel := List.replicate 6 { r := 9, g := 9, b := 9 }

/-- The stored channel `c` is the clamp of the accumulated sum `s`: it is
`min 255 (max 0 s)`, that is 0 below 0, 255 above 255 and `s` in between, and it
is a channel value. -/
def IsClampOf (c : Nat) (s : Int) : Prop :=
  (c : Int) = min 255 (max 0 s) ∧
  (c : Int) = (if s < 0 then 0 else if s > 255 then 255 else s) ∧
  c ≤ 255

/-! ## readImage and writeImage

A file is the list of its bytes. A C string held in a `char` array is the list
of the bytes before the first NUL. -/

/-- The ways `readImage` ends without returning: `exit(1)` after one of its
diagnostics, or the comment loop running for ever at the end of the file. -/
inductive ReadFailure where
  | openError
  | invalidFileType
  | invalidColorMode
  | readError
  | noTermination
deriving DecidableEq, Repr

/-- The values `readImage` does not initialise before it uses them: the arrays
`format` and `color` (as C strings), the local `curr`, the fields `w` and `h` of
the allocated record, and the bytes of the allocated pixel memory. -/
structure Indeterminate where
  format : List Nat
  curr : Nat
  w : Nat
  h : Nat
  color : List Nat
  mem : Nat → Nat

/-- The C function `isspace` in the C locale. -/
def isspace (c : Nat) : Bool := c == 32 || (9 ≤ c && c ≤ 13)

/-- The C function `isdigit`. -/
def isdigit (c : Nat) : Bool := 48 ≤ c && c ≤ 57

/-- White space skipped at the start of a `%s` or `%ld` conversion. -/
def skipSpace : List Nat → List Nat
  | [] => []
  | c :: cs => if isspace c then skipSpace cs else c :: cs

/-- The C string of a `char` array: the bytes before the first NUL. -/
def cstr (buf : List Nat) : List Nat := buf.takeWhile (fun c => c != 0)

/-- The conversion `fscanf(f, "%s", buf)`: white space is skipped and the run of
bytes that are not white space is stored; at the end of the file nothing is
stored. Returns the stored bytes, if any, and the rest of the file. The run is
taken to fit the array it is stored in. -/
def scanString (s : List Nat) : Option (List Nat) × List Nat :=
  match skipSpace s with
  | [] => (none, [])
  | c :: cs =>
    (some ((c :: cs).takeWhile (fun c => !isspace c)), (c :: cs).dropWhile (fun c => !isspace c))

/-- The value of a run of decimal digits. -/
def digitsValue (ds : List Nat) : Nat := ds.foldl (fun acc d => acc * 10 + (d - 48)) 0

/-- A signed decimal number at the start of `s`: an optional sign and the digits
that follow. Returns the value when there is a digit, and the rest. -/
def scanNumber (s : List Nat) : Option Int × List Nat :=
  match s with
  | 45 :: cs =>
    if (cs.takeWhile isdigit).isEmpty then (none, cs)
    else (some (-(digitsValue (cs.takeWhile isdigit) : Int)), cs.dropWhile isdigit)
  | 43 :: cs =>
    if (cs.takeWhile isdigit).isEmpty then (none, cs)
    else (some (digitsValue (cs.takeWhile isdigit) : Int), cs.dropWhile isdigit)
  | cs =>
    if (cs.takeWhile isdigit).isEmpty then (none, cs)
    else (some (digitsValue (cs.takeWhile isdigit) : Int), cs.dropWhile isdigit)

/-- The conversion `fscanf(f, "%ld", &v)` into an `unsigned long`: white space
is skipped and a number is read and stored; when no number is there nothing is
stored. -/
def scanLong (s : List Nat) : Option Nat × List Nat :=
  let r := scanNumber (skipSpace s)
  (r.1.map (fun v => (toULong v).toNat), r.2)

/-- The C function `atoi` on a C string. -/
def atoi (s : List Nat) : Int :=
  match (scanNumber (skipSpace s)).1 with
  | some v => toCInt v
  | none => 0

/-- The loop `while(curr != '\n') curr = fgetc(Rfile)` entered with `curr`
different from the newline: the rest of the file after the first newline. At the
end of the file `fgetc` gives `EOF` on and on and the loop does not end. -/
def skipLine : List Nat → Option (List Nat)
  | [] => none
  | c :: cs => if c = 10 then some cs else skipLine cs

/-- The pixels of a buffer of `n` bytes whose first bytes are `bytes` and whose
other bytes are as allocated. -/
def pixelsOf (bytes : List Nat) (mem : Nat → Nat) (n : Nat) : List PPMPixel :=
  (List.range (n / 3)).map (fun i =>
    { r := bytes.getD (3 * i) (mem (3 * i))
      g := bytes.getD (3 * i + 1) (mem (3 * i + 1))
      b := bytes.getD (3 * i + 2) (mem (3 * i + 2)) })

/-- The function `readImage` on the content of the file (`none` when the file
cannot be opened). Returns the pixel buffer and the values stored in `*width`
and `*height`. -/
def readImage (ind : Indeterminate) (file : Option (List Nat)) :
    Except ReadFailure (List PPMPixel × Nat × Nat) :=
  match file with
  | none => .error .openError
  | some s0 =>
    -- fscanf(Rfile, "%s", format)
    let (tok, s1) := scanString s0
    let format := cstr (tok.getD ind.format)
    -- if(!strcmp(&format[0], "P6\n"))
    if format = [80, 54, 10] then .error .invalidFileType
    else
      -- fgetc(Rfile); fgetc(Rfile);
      let s2 := s1.drop 2
      -- while(curr != '\n') curr = fgetc(Rfile)
      match (if ind.curr = 10 then some s2 else skipLine s2) with
      | none => .error .noTermination
      | some s3 =>
        -- fscanf(Rfile, "%ld", &img->w); fscanf(Rfile, "%ld", &img->h)
        let (wv, s4) := scanLong s3
        let (hv, s5) := scanLong s4
        let w := wv.getD ind.w
        let h := hv.getD ind.h
        -- fscanf(Rfile, "%s", color)
        let (ctok, s6) := scanString s5
        let color := cstr (ctok.getD ind.color)
        if atoi color ≠ 255 then .error .invalidColorMode
        else
          -- fgetc(Rfile)
          let s7 := s6.drop 1
          -- fread(img->image, 1, img->h*img->w*3, Rfile)
          let n := (toULong ((h : Int) * w * 3)).toNat
          let bytes := s7.take n
          if bytes.length = 0 then .error .readError
          else .ok (pixelsOf bytes ind.mem n, w, h)

/-- The bytes of a pixel buffer, as `fwrite` sees them. -/
def bytesOf (image : List PPMPixel) : List Nat :=
  image.flatMap (fun p => [p.r, p.g, p.b])

/-- The text of `fprintf(fp, "%ld", v)` for an `unsigned long` value `v`: the
decimal digits of the value read as a `long`. -/
def formatLong (v : Nat) : List Nat :=
  if v < 9223372036854775808 then (Nat.toDigits 10 v).map Char.toNat
  else 45 :: (Nat.toDigits 10 (18446744073709551616 - v)).map Char.toNat

/-- The bytes `writeImage` puts in the file it creates: the header
`P6\n<width> <height>\n255\n` and `height * width * 3` bytes of the buffer;
`none` when the buffer is shorter than that. The test `fwrite == 0` after the
write compares the function with zero and never fails. -/
def writeImage (image : List PPMPixel) (width height : Nat) : Option (List Nat) :=
  let n := (toULong ((height : Int) * width * 3)).toNat
  if (bytesOf image).length < n then none
  else some ([80, 54, 10] ++ formatLong width ++ [32] ++ formatLong height ++ [10] ++
    [50, 53, 53, 10] ++ (bytesOf image).take n)

/-- The indeterminate values all zero. -/
def zeroed : Indeterminate :=
  { format := [], curr := 0, w := 0, h := 0, color := [], mem := fun _ => 0 }

/-- A P6 file of one pixel with one comment line: `P6\n# c\n1 1\n255\n` and the
bytes 7, 8, 9. -/
def p6File : List Nat :=
  [80, 54, 10, 35, 32, 99, 10, 49, 32, 49, 10, 50, 53, 53, 10, 7, 8, 9]

/-- The same file with the magic token `P5`. -/
def p5File : List Nat :=
  [80, 53, 10, 35, 32, 99, 10, 49, 32, 49, 10, 50, 53, 53, 10, 7, 8, 9]

/-- A P6 file cut short: the header `P6\n# c\n2 1\n255\n` declares two pixels
(six bytes) and only the three bytes 7, 8, 9 follow. -/
def truncatedFile : List Nat :=
  [80, 54, 10, 35, 32, 99, 10, 50, 32, 49, 10, 50, 53, 53, 10, 7, 8, 9]

/-- The same header with no pixel data at all. -/
def headerOnlyFile : List Nat :=
  [80, 54, 10, 35, 32, 99, 10, 50, 32, 49, 10, 50, 53, 53, 10]

/-! ## The name of the output file

A name is the list of its bytes; the array `outputfile` holds a C string, the
bytes up to the first NUL. -/

/-- The bytes of a string of plain characters. -/
def bytesOfString (s : String) : List Nat := s.toList.map Char.toNat

/-- The string `"_laplacian.ppm"` appended by `writeImage`. -/
def laplacianSuffix : List Nat := bytesOfString "_laplacian.ppm"

/-- The scan of `strtok` for the end of the token: the first `.` met before the
terminator is overwritten with NUL. -/
def cutAtDot : List Nat → List Nat
  | [] => []
  | c :: cs =>
    if c = 0 then c :: cs
    else if c = 46 then 0 :: cs
    else c :: cutAtDot cs

/-- The call `strtok(outputfile, ".")` on the content of the array: the leading
`.` bytes are skipped, then the token is ended at the next `.`. -/
def strtokDot : List Nat → List Nat
  | [] => []
  | c :: cs => if c = 46 then c :: strtokDot cs else cutAtDot (c :: cs)

/-- The call `strcat(outputfile, suffix)`: the suffix and a terminator are put
where the C string of the array ends. -/
def strcat (buf suffix : List Nat) : List Nat := cstr buf ++ suffix ++ [0]

/-- The name `writeImage` opens for the input name `name`: `strcpy` into the
array `outputfile[128]`, `strtok` with the delimiter `.`, `strcat` of
`"_laplacian.ppm"`. A string that does not fit the array is the failure `none`. -/
def outputfile (name : List Nat) : Option (List Nat) :=
  if 128 < name.length + 1 then none
  else
    let buf := strtokDot (name ++ [0])
    if 128 < (cstr buf).length + laplacianSuffix.length + 1 then none
    else some (cstr (strcat buf laplacianSuffix))

/-- The path with its extension stripped, as the specification words it: the
last `.` and what follows it are removed, everything before is kept. -/
def stripExtension (name : List Nat) : List Nat :=
  if 46 ∈ name then ((name.reverse.dropWhile (fun c => c != 46)).drop 1).reverse else name

/-- The input name `a.b.ppm`. -/
def dottedName : List Nat := bytesOfString "a.b.ppm"

/-- The input name `pics.v2/img.ppm`. -/
def dottedDirName : List Nat := bytesOfString "pics.v2/img.ppm"

/-- The input name `./pics/img.ppm`. -/
def relativeName : List Nat := bytesOfString "./pics/img.ppm"

/-! ## The elapsed time -/

/-- The two fields of a `struct timeval` read by `apply_filters`. -/
structure timeval where
  tv_sec : Int
  tv_usec : Int
deriving DecidableEq, Repr

/-- The integer `(end.tv_sec / 1000000 + end.tv_usec) - (start.tv_sec / 1000000 +
start.tv_usec)` that `apply_filters` converts to `double`; the division is the
C division of integers, which truncates. -/
def elapsedTicks (start stop : timeval) : Int :=
  (stop.tv_sec.tdiv 1000000 + stop.tv_usec) - (start.tv_sec.tdiv 1000000 + start.tv_usec)

/-- The value stored in `*elapsedTime`: the integer above divided by `1000000`,
as a rational number (the `double` stored is this number rounded; it has the
same sign). -/
def elapsedTime (start stop : timeval) : Rat := (elapsedTicks start stop : Rat) / 1000000

/-- The elapsed wall-clock time in seconds as the specification words it:
`(s1 - s0) + (u1 - u0) / 1000000`. -/
def wallClockSeconds (start stop : timeval) : Rat :=
  ((stop.tv_sec - start.tv_sec : Int) : Rat) + ((stop.tv_usec - start.tv_usec : Int) : Rat) / 1000000

/-! ## main -/

/-- What a run of the program did: the exit status (`none` when the run does not
end with one: it loops for ever, is stopped by a fault, or leaves a buffer),
whether the usage diagnostic was printed, whether `readImage` was called, and the
name and bytes of the file written. -/
structure Run where
  status : Option Nat
  usage : Bool
  fileRead : Bool
  written : Option (List Nat × List Nat)
deriving DecidableEq

/-- The store `img -> image = ...` of `main`. The pointer `img` is declared by
`struct parameter *img;` and never given a value, so the store has no object to
go to: it is the failure `none`, like an access outside a buffer. -/
def storeThroughImg (_image : List PPMPixel) : Option (List PPMPixel) := none

/-- The function `main` with `THREADS = N`: `argc` is the argument count,
`argv1` the bytes of `argv[1]`, `file` the content of the file of that name, and
`alloc n` the memory `malloc` returns for a result of `n` pixels. After the
argument check `readImage` is called and its result is stored through the
uninitialised pointer `img`; the statements after that store are reached only if
the store succeeds. -/
def main (ind : Indeterminate) (N : Nat) (argc : Int) (argv1 : List Nat)
    (file : Option (List Nat)) (alloc : Nat → List PPMPixel) : Run :=
  -- if(argc < 2 || argc > 3)
  if argc < 2 ∨ argc > 3 then
    { status := some 1, usage := true, fileRead := false, written := none }
  else
    -- img -> image = readImage(argv[1], &w, &h)
    match readImage ind file with
    | .error .noTermination =>
      { status := none, usage := false, fileRead := true, written := none }
    | .error _ => { status := some 1, usage := false, fileRead := true, written := none }
    | .ok (image, w, h) =>
      match storeThroughImg image with
      | none => { status := none, usage := false, fileRead := true, written := none }
      | some image =>
        -- img -> result = apply_filters(img->image, w, h, &elapsedTime)
        match apply_filters N image w h (alloc (w * h)) with
        | none => { status := none, usage := false, fileRead := true, written := none }
        | some result =>
          -- writeImage(img -> result, argv[1], w, h)
          match outputfile argv1, writeImage result w h with
          | some name, some bytes =>
            { status := some 0, usage := false, fileRead := true, written := some (name, bytes) }
          | _, _ => { status := none, usage := false, fileRead := true, written := none }

/-- Memory of `n` pixels, all zero. -/
def zeroAlloc (n : Nat) : List PPMPixel := List.replicate n { r := 0, g := 0, b := 0 }

/-! ## The writes of the workers

The same loops as `threadfn` and `apply_filters`, recording beside the result
buffer the index of every store in the order they are made. -/

/-- The body of the loop over `y`, with the log of the stores. -/
def pixelStepLog (p : parameter) (x : Nat) (st : List PPMPixel × List Nat) (y : Nat) :
    Option (List PPMPixel × List Nat) := do
  let px ← pixelValue p.image p.w p.h x y
  let result ← store st.1 (resultIndex p.w x y) px
  some (result, st.2 ++ [resultIndex p.w x y])

/-- The thread function with the log of its stores. -/
def threadfnLog (p : parameter) : Option (List PPMPixel × List Nat) :=
  (List.range p.w).foldlM
    (fun st x => (List.range' p.start p.size).foldlM (pixelStepLog p x) st)
    (p.result, [])

/-- The filter pass with the logs of the stores of the workers, one log for
each worker. -/
def apply_filtersLog (N : Nat) (image : List PPMPixel) (w h : Nat) (mem : List PPMPixel) :
    Option (List PPMPixel × List (List Nat)) :=
  if N = 0 then none
  else (List.range N).foldlM
    (fun st i => do
      let r ← threadfnLog (paramsOf N image st.1 w h i)
      some (r.1, st.2 ++ [r.2]))
    (mem, [])

/-- The indices of the cells of the rows `[start, start + size)`, in the order
the loops of a worker visit them. -/
def rowCells (w start size : Nat) : List Nat :=
  ((List.range w).flatMap (fun x => (List.range' start size).map (fun y => (x, y)))).map
    (fun k => k.2 * w + k.1)

/-! ## The accumulators step by step -/

/-- The nine kernel offsets `(filterx, filtery)` in the order the two kernel
loops visit them. -/
def kernelOffsets : List (Nat × Nat) :=
  (List.range filterWidth).flatMap (fun filterx =>
    (List.range filterHeight).map (fun filtery => (filterx, filtery)))

/-- The accumulators after the first `k` accumulation steps of the kernel loops
at the target `(x, y)`. -/
def accAfter (image : List PPMPixel) (w h x y k : Nat) : Option Acc :=
  (kernelOffsets.take k).foldlM (fun acc f => accumulate image w h x y f.1 acc f.2)
    { red := 0, green := 0, blue := 0 }

/-- The index `imagey * thr_params.w + imagex` read at the kernel offset
`(filterx, filtery)` for the target `(x, y)`. -/
def sampleIndex (w h x y filterx filtery : Nat) : Option Nat := do
  let ix ← imagex w x filterx
  let iy ← imagey h y filtery
  some (imageIndex w ix iy)

/-- The indices read at the eight kernel offsets other than the centre
`(1, 1)`, in loop order. -/
def neighbourReads (w h x y : Nat) : List (Option Nat) :=
  (kernelOffsets.filter (fun f => f != (1, 1))).map (fun f => sampleIndex w h x y f.1 f.2)

/-! ## Cyclic shifts -/

/-- The integer `z` reduced modulo `n`, as a coordinate. -/
def wrapCoord (n : Nat) (z : Int) : Nat := (z % n).toNat

/-- The image shifted cyclically by `(dx, dy)`:
`shift(I)(x, y) = I((x + dx) mod w, (y + dy) mod h)`. -/
def shiftImage (image : List PPMPixel) (w h : Nat) (dx dy : Int) : List PPMPixel :=
  (List.range (w * h)).map (fun i =>
    image.getD (wrapCoord h (((i / w : Nat) : Int) + dy) * w + wrapCoord w (((i % w : Nat) : Int) + dx))
      { r := 0, g := 0, b := 0 })

/-! ## Images beyond the range of `int` -/

/-- The pixel `(255, 255, 255)`. -/
def white : PPMPixel := { r := 255, g := 255, b := 255 }

/-- The pixel `(0, 0, 0)`. -/
def black : PPMPixel := { r := 0, g := 0, b := 0 }

/-- An image of width 3 and height `2 ^ 32 + 1`: the last row is black and every
other row is white. -/
def tallImage : List PPMPixel :=
  (List.range (3 * 4294967297)).map (fun i => if i < 3 * 4294967296 then white else black)

/-- An image of width `2 ^ 31 + 1` and height 1, all black. -/
def wideImage : List PPMPixel := (List.range 2147483649).map (fun _ => black)

/-- The index `((y-1+fy+h) mod h)*w + ((x-1+fx+w) mod w)` of the specification's
sample. -/
def sourceIndex (w h x y fx fy : Nat) : Nat :=
  (((y : Int) - 1 + fy + h) % h * w + ((x : Int) - 1 + fx + w) % w).toNat

/-! ## Arithmetic of the index computations -/

theorem toULong_eq (z : Int) (h0 : 0 ≤ z) (h1 : z < 18446744073709551616) : toULong z = z := by
  unfold toULong; omega

theorem toCInt_eq (z : Int) (h0 : -2147483648 ≤ z) (h1 : z ≤ 2147483647) : toCInt z = z := by
  unfold toCInt; omega

/-- The sampled column is the target column shifted by `filterx - 1`, wrapped. -/
theorem imagex_eq (w x filterx : Nat) (hw : 1 ≤ w) (hwm : w ≤ INT_MAX) (hx : x < w)
    (hf : filterx < 3) :
    imagex w x filterx = some (((x : Int) - 1 + filterx + w) % w) := by
  have hwm2 : w ≤ 2147483647 := hwm
  have hpos : (0 : Int) < w := by omega
  have h1 := Int.emod_nonneg ((x : Int) - 1 + filterx + w) (ne_of_gt hpos)
  have h2 := Int.emod_lt_of_pos ((x : Int) - 1 + filterx + w) hpos
  have h3 : toULong (toULong ((x : Int) - 1 + filterx) + w) = (x : Int) - 1 + filterx + w := by
    unfold toULong; omega
  have h4 : ((filterWidth / 2 : Nat) : Int) = 1 := by decide
  unfold imagex
  rw [if_neg (by omega), h4, h3, toCInt_eq _ (by omega) (by omega)]

/-- The sampled row is the target row shifted by `filtery - 1`, wrapped. -/
theorem imagey_eq (h y filtery : Nat) (hh : 1 ≤ h) (hhm : h ≤ INT_MAX) (hy : y < h)
    (hf : filtery < 3) :
    imagey h y filtery = some (((y : Int) - 1 + filtery + h) % h) := by
  have hwm2 : h ≤ 2147483647 := hhm
  have hpos : (0 : Int) < h := by omega
  have h1 := Int.emod_nonneg ((y : Int) - 1 + filtery + h) (ne_of_gt hpos)
  have h2 := Int.emod_lt_of_pos ((y : Int) - 1 + filtery + h) hpos
  have h3 : toULong (toULong ((y : Int) - 1 + filtery) + h) = (y : Int) - 1 + filtery + h := by
    unfold toULong; omega
  have h4 : ((filterHeight / 2 : Nat) : Int) = 1 := by decide
  unfold imagey
  rw [if_neg (by omega), h4, h3, toCInt_eq _ (by omega) (by omega)]

theorem cell_lt (w h x y : Nat) (hx : x < w) (hy : y < h) : y * w + x < w * h := by
  have h1 : (y + 1) * w ≤ h * w := Nat.mul_le_mul_right w hy
  have h2 : (y + 1) * w = y * w + w := by ring
  have h3 : h * w = w * h := Nat.mul_comm h w
  omega

theorem cell_inj (w x y x' y' : Nat) (hx : x < w) (hx' : x' < w)
    (he : y' * w + x' = y * w + x) : x' = x ∧ y' = y := by
  have hw : 0 < w := by omega
  have h1 : (y' * w + x') / w = y' := by
    rw [Nat.add_comm, Nat.add_mul_div_right _ _ hw, Nat.div_eq_of_lt hx']; simp
  have h2 : (y * w + x) / w = y := by
    rw [Nat.add_comm, Nat.add_mul_div_right _ _ hw, Nat.div_eq_of_lt hx]; simp
  have hy : y' = y := by rw [← h1, ← h2, he]
  subst hy
  exact ⟨by omega, rfl⟩

theorem dims_lt (w h : Nat) (hwm : w ≤ INT_MAX) (hhm : h ≤ INT_MAX) :
    w * h < 18446744073709551616 := by
  have h1 : w * h ≤ INT_MAX * INT_MAX := Nat.mul_le_mul hwm hhm
  have h2 : INT_MAX * INT_MAX < 18446744073709551616 := by decide
  omega

theorem resultIndex_eq (w h x y : Nat) (hwm : w ≤ INT_MAX) (hhm : h ≤ INT_MAX)
    (hx : x < w) (hy : y < h) : resultIndex w x y = y * w + x := by
  have h1 := cell_lt w h x y hx hy
  have h2 := dims_lt w h hwm hhm
  unfold resultIndex
  rw [toULong_eq _ (by positivity) (by exact_mod_cast (by omega : y * w + x < 18446744073709551616))]
  exact_mod_cast Int.toNat_natCast (y * w + x)

/-! ## Loops of stores -/

/-- Two nested loops are one loop over the pairs of counters. -/
theorem foldlM_nested {α β γ : Type} (f : α → γ → β → Option γ) (ys : List β) :
    ∀ (xs : List α) (c : γ),
      xs.foldlM (fun c x => ys.foldlM (f x) c) c =
        (xs.flatMap (fun x => ys.map (fun y => (x, y)))).foldlM (fun c k => f k.1 c k.2) c := by
  intro xs
  induction xs with
  | nil => intro c; rfl
  | cons x xs ih =>
    intro c
    rw [List.foldlM_cons, List.flatMap_cons, List.foldlM_append, List.foldlM_map]
    congr 1
    funext c1
    exact ih c1

/-- A loop whose body stores `val k` at `idx k` succeeds when every index is in
the buffer; each cell afterwards is either untouched or holds the value of a key
of that index. -/
theorem foldlM_store {κ : Type} (idx : κ → Nat) (val : κ → PPMPixel)
    (step : List PPMPixel → κ → Option (List PPMPixel)) :
    ∀ (keys : List κ) (buf : List PPMPixel),
      (∀ k ∈ keys, ∀ b, step b k = store b (idx k) (val k)) →
      (∀ k ∈ keys, idx k < buf.length) →
      ∃ res, keys.foldlM step buf = some res ∧ res.length = buf.length ∧
        ∀ i, (res[i]? = buf[i]? ∧ ∀ k ∈ keys, idx k ≠ i) ∨
          (∃ k ∈ keys, idx k = i ∧ res[i]? = some (val k)) := by
  intro keys
  induction keys with
  | nil =>
    intro buf _ _
    exact ⟨buf, rfl, rfl, fun i => Or.inl ⟨rfl, by simp⟩⟩
  | cons k t ih =>
    intro buf hstep hidx
    have hk : idx k < buf.length := hidx k (List.mem_cons_self k t)
    have h1 : step buf k = some (buf.set (idx k) (val k)) := by
      rw [hstep k (List.mem_cons_self k t) buf, store, if_pos hk]
    obtain ⟨res, hres, hlen, hcell⟩ := ih (buf.set (idx k) (val k))
      (fun k' hk' b => hstep k' (List.mem_cons_of_mem k hk') b)
      (fun k' hk' => by rw [List.length_set]; exact hidx k' (List.mem_cons_of_mem k hk'))
    refine ⟨res, ?_, ?_, ?_⟩
    · rw [List.foldlM_cons, h1]; exact hres
    · rw [hlen, List.length_set]
    · intro i
      rcases hcell i with ⟨he, hne⟩ | ⟨k', hk', hi, hv⟩
      · by_cases hki : idx k = i
        · right
          refine ⟨k, List.mem_cons_self k t, hki, ?_⟩
          rw [he, List.getElem?_set, if_pos hki, if_pos hk]
        · left
          refine ⟨?_, ?_⟩
          · rw [he, List.getElem?_set, if_neg hki]
          · intro k' hk'
            rcases List.mem_cons.mp hk' with h | h
            · rw [h]; exact hki
            · exact hne k' h
      · right
        exact ⟨k', List.mem_cons_of_mem k hk', hi, hv⟩

/-! ## The kernel loops -/

/-- Every read of the kernel loops is inside the image and reads the wrapped
neighbour. -/
theorem sample_eq (image : List PPMPixel) (w h x y filterx filtery : Nat)
    (hw : 1 ≤ w) (hwm : w ≤ INT_MAX) (hh : 1 ≤ h) (hhm : h ≤ INT_MAX)
    (hlen : image.length = w * h) (hx : x < w) (hy : y < h)
    (hfx : filterx < 3) (hfy : filtery < 3) :
    sample image w h x y filterx filtery = some (sourceAt image w h x y filterx filtery) := by
  have hwp : (0 : Int) < w := by omega
  have hhp : (0 : Int) < h := by omega
  have a1 := Int.emod_nonneg ((x : Int) - 1 + filterx + w) (ne_of_gt hwp)
  have a2 := Int.emod_lt_of_pos ((x : Int) - 1 + filterx + w) hwp
  have b1 := Int.emod_nonneg ((y : Int) - 1 + filtery + h) (ne_of_gt hhp)
  have b2 := Int.emod_lt_of_pos ((y : Int) - 1 + filtery + h) hhp
  unfold sample sourceAt
  rw [imagex_eq w x filterx hw hwm hx hfx, imagey_eq h y filtery hh hhm hy hfy]
  generalize ((x : Int) - 1 + filterx + w) % w = ix at a1 a2
  generalize ((y : Int) - 1 + filtery + h) % h = iy at b1 b2
  lift ix to ℕ using a1
  lift iy to ℕ using b1
  have hc := cell_lt w h ix iy (by exact_mod_cast a2) (by exact_mod_cast b2)
  have hd := dims_lt w h hwm hhm
  have he : ((iy : Int) * w + ix) = ((iy * w + ix : Nat) : Int) := by push_cast; ring
  have hi : imageIndex w ix iy = iy * w + ix := by
    unfold imageIndex
    rw [he, toULong_eq _ (by positivity) (by exact_mod_cast (by omega : iy * w + ix < 18446744073709551616))]
    exact Int.toNat_natCast _
  simp only [Option.bind_eq_bind, Option.some_bind, hi, he, Int.toNat_natCast]
  rw [List.getD_eq_getElem?_getD, List.getElem?_eq_getElem (by omega)]
  rfl

theorem range3 : List.range 3 = [0, 1, 2] := by decide

/-- The kernel loops succeed and leave in each accumulator the kernel sum of its
channel. -/
theorem kernelLoop_eq (image : List PPMPixel) (w h x y : Nat)
    (hw : 1 ≤ w) (hwm : w ≤ INT_MAX) (hh : 1 ≤ h) (hhm : h ≤ INT_MAX)
    (hlen : image.length = w * h) (hx : x < w) (hy : y < h) :
    kernelLoop image w h x y =
      some { red := kernelSum (fun p => p.r) image w h x y
             green := kernelSum (fun p => p.g) image w h x y
             blue := kernelSum (fun p => p.b) image w h x y } := by
  have hs : ∀ fx fy, fx < 3 → fy < 3 →
      sample image w h x y fx fy = some (sourceAt image w h x y fx fy) :=
    fun fx fy hfx hfy => sample_eq image w h x y fx fy hw hwm hh hhm hlen hx hy hfx hfy
  unfold kernelLoop
  have e1 : filterWidth = 3 := rfl
  have e2 : filterHeight = 3 := rfl
  rw [e1, e2, range3]
  simp only [List.foldlM_cons, List.foldlM_nil, accumulate, hs 0 0 (by omega) (by omega),
    hs 0 1 (by omega) (by omega), hs 0 2 (by omega) (by omega), hs 1 0 (by omega) (by omega),
    hs 1 1 (by omega) (by omega), hs 1 2 (by omega) (by omega), hs 2 0 (by omega) (by omega),
    hs 2 1 (by omega) (by omega), hs 2 2 (by omega) (by omega),
    Option.bind_eq_bind, Option.some_bind, Option.pure_def, bind_pure]
  simp only [kernelSum, Finset.sum_range_succ, Finset.sum_range_zero, K, weight, laplacian]
  simp
  refine ⟨?_, ?_, ?_⟩ <;> ring

/-! ## The thread function -/

theorem pixelValue_eq (image : List PPMPixel) (w h x y : Nat)
    (hw : 1 ≤ w) (hwm : w ≤ INT_MAX) (hh : 1 ≤ h) (hhm : h ≤ INT_MAX)
    (hlen : image.length = w * h) (hx : x < w) (hy : y < h) :
    pixelValue image w h x y = some (filteredPixel image w h x y) := by
  unfold pixelValue filteredPixel
  rw [kernelLoop_eq image w h x y hw hwm hh hhm hlen hx hy]
  rfl

/-- The effect of one worker on the result buffer: the cells of its rows hold
the filtered pixels, every other cell is left as it was. -/
theorem threadfn_cells (image result : List PPMPixel) (w h start size : Nat)
    (hw : 1 ≤ w) (hwm : w ≤ INT_MAX) (hh : 1 ≤ h) (hhm : h ≤ INT_MAX)
    (hlen : image.length = w * h) (hres : result.length = w * h)
    (hrange : start + size ≤ h) :
    ∃ res, threadfn { image := image, result := result, w := w, h := h,
                      start := start, size := size } = some res ∧
      res.length = w * h ∧
      ∀ x y, x < w → y < h →
        res[y * w + x]? =
          if start ≤ y ∧ y < start + size then some (filteredPixel image w h x y)
          else result[y * w + x]? := by
  have hmem : ∀ k : Nat × Nat,
      k ∈ (List.range w).flatMap (fun x => (List.range' start size).map (fun y => (x, y))) ↔
        k.1 < w ∧ start ≤ k.2 ∧ k.2 < start + size := by
    intro k
    rw [List.mem_flatMap]
    constructor
    · rintro ⟨x, hx, hk⟩
      rw [List.mem_map] at hk
      obtain ⟨y, hy, rfl⟩ := hk
      rw [List.mem_range'_1] at hy
      exact ⟨List.mem_range.mp hx, hy.1, hy.2⟩
    · rintro ⟨h1, h2, h3⟩
      exact ⟨k.1, List.mem_range.mpr h1,
        List.mem_map.mpr ⟨k.2, List.mem_range'_1.mpr ⟨h2, h3⟩, rfl⟩⟩
  obtain ⟨res, hfold, hl, hcell⟩ := foldlM_store
    (fun k : Nat × Nat => k.2 * w + k.1) (fun k => filteredPixel image w h k.1 k.2)
    (fun c k => pixelStep { image := image, result := result, w := w, h := h,
                            start := start, size := size } k.1 c k.2)
    ((List.range w).flatMap (fun x => (List.range' start size).map (fun y => (x, y)))) result
    (by
      intro k hk b
      obtain ⟨h1, h2, h3⟩ := (hmem k).mp hk
      have hy : k.2 < h := by omega
      simp only [pixelStep, pixelValue_eq image w h k.1 k.2 hw hwm hh hhm hlen h1 hy,
        resultIndex_eq w h k.1 k.2 hwm hhm h1 hy, Option.bind_eq_bind, Option.some_bind])
    (by
      intro k hk
      obtain ⟨h1, h2, h3⟩ := (hmem k).mp hk
      rw [hres]
      exact cell_lt w h k.1 k.2 h1 (by omega))
  refine ⟨res, ?_, by rw [hl, hres], ?_⟩
  · unfold threadfn
    rw [← hfold]
    exact foldlM_nested _ _ _ _
  · intro x y hx hy
    rcases hcell (y * w + x) with ⟨he, hne⟩ | ⟨k, hk, hi, hv⟩
    · have hout : ¬ (start ≤ y ∧ y < start + size) := by
        intro hin
        exact hne (x, y) ((hmem (x, y)).mpr ⟨hx, hin.1, hin.2⟩) rfl
      rw [if_neg hout, he]
    · obtain ⟨h1, h2, h3⟩ := (hmem k).mp hk
      obtain ⟨e1, e2⟩ := cell_inj w x y k.1 k.2 hx h1 hi
      rw [e1, e2] at hv
      rw [e2] at h2 h3
      rw [if_pos ⟨h2, h3⟩, hv]

/-! ## The partition of the rows -/

theorem work_eq (N h : Nat) (hhm : h ≤ INT_MAX) : work N h = ((h / N : Nat) : Int) := by
  have h1 : h / N ≤ h := Nat.div_le_self h N
  have h2 : h ≤ 2147483647 := hhm
  unfold work
  generalize h / N = b at h1 ⊢
  rw [toCInt_eq _ (by omega) (by omega)]

theorem mul_base_le (N h i : Nat) (hi : i < N) : i * (h / N) + h / N ≤ h := by
  have h1 : (i + 1) * (h / N) ≤ N * (h / N) := Nat.mul_le_mul_right _ hi
  have h2 : N * (h / N) ≤ h := Nat.mul_div_le h N
  have h3 : (i + 1) * (h / N) = i * (h / N) + h / N := by ring
  omega

theorem startOf_eq (N h i : Nat) (hhm : h ≤ INT_MAX) (hi : i < N) :
    startOf N h i = i * (h / N) := by
  have h1 := mul_base_le N h i hi
  have h2 : h ≤ 2147483647 := hhm
  have he : (i : Int) * ((h / N : Nat) : Int) = ((i * (h / N) : Nat) : Int) := by push_cast; ring
  unfold startOf
  rw [work_eq N h hhm, he]
  generalize i * (h / N) = m at h1 ⊢
  generalize h / N = b at h1
  rw [toULong_eq _ (by positivity) (by omega)]
  exact Int.toNat_natCast _

theorem sizeOf_eq (N h i : Nat) (hhm : h ≤ INT_MAX) (hi : i < N) :
    sizeOf N h i = if i + 1 = N then h - (h / N) * i else h / N := by
  have h1 := mul_base_le N h i hi
  have h2 : h ≤ 2147483647 := hhm
  have h4 : h / N * i = i * (h / N) := Nat.mul_comm _ _
  have he : ((h / N : Nat) : Int) * (i : Int) = ((i * (h / N) : Nat) : Int) := by push_cast; ring
  unfold sizeOf
  rw [work_eq N h hhm, he, h4]
  generalize i * (h / N) = m at h1 ⊢
  generalize h / N = b at h1 ⊢
  by_cases hl : i + 1 = N
  · rw [if_pos (by omega), if_pos hl, toULong_eq (m : Int) (by positivity) (by omega),
      toULong_eq _ (by omega) (by omega)]
    omega
  · rw [if_neg (by omega), if_neg hl, toULong_eq _ (by positivity) (by omega)]
    exact Int.toNat_natCast _

theorem sum_map_const (f : Nat → Nat) (b : Nat) :
    ∀ n, (∀ i, i < n → f i = b) → ((List.range n).map f).sum = n * b := by
  intro n
  induction n with
  | zero => intro _; simp
  | succ n ih =>
    intro hf
    rw [List.range_succ, List.map_append, List.sum_append, ih (fun i hi => hf i (by omega)),
      List.map_singleton, List.sum_singleton, hf n (by omega)]
    ring

/-- The sizes handed to the `N` workers add up to the height. -/
theorem sizes_sum (N h : Nat) (hN : 1 ≤ N) (hhm : h ≤ INT_MAX) :
    ((List.range N).map (fun i => sizeOf N h i)).sum = h := by
  obtain ⟨n, rfl⟩ : ∃ n, N = n + 1 := ⟨N - 1, by omega⟩
  have h1 := mul_base_le (n + 1) h n (by omega)
  have h4 : h / (n + 1) * n = n * (h / (n + 1)) := Nat.mul_comm _ _
  rw [List.range_succ, List.map_append, List.sum_append,
    sum_map_const _ (h / (n + 1)) n (fun i hi => by
      show sizeOf (n + 1) h i = h / (n + 1)
      rw [sizeOf_eq (n + 1) h i hhm (by omega), if_neg (by omega)]),
    List.map_singleton, List.sum_singleton, sizeOf_eq (n + 1) h n hhm (by omega), if_pos rfl, h4]
  generalize n * (h / (n + 1)) = m at h1 ⊢
  generalize h / (n + 1) = b at h1 ⊢
  omega

/-- The row ranges reach the height and no further. -/
theorem range_le (N h i : Nat) (hhm : h ≤ INT_MAX) (hi : i < N) :
    startOf N h i + sizeOf N h i ≤ h := by
  have h1 := mul_base_le N h i hi
  have h4 : h / N * i = i * (h / N) := Nat.mul_comm _ _
  rw [startOf_eq N h i hhm hi, sizeOf_eq N h i hhm hi, h4]
  generalize i * (h / N) = m at h1 ⊢
  generalize h / N = b at h1 ⊢
  split <;> omega

/-- Every row belongs to the range of some worker. -/
theorem row_covered (N h y : Nat) (hN : 1 ≤ N) (hhm : h ≤ INT_MAX) (hy : y < h) :
    ∃ i, i < N ∧ startOf N h i ≤ y ∧ y < startOf N h i + sizeOf N h i := by
  by_cases hc : y < (N - 1) * (h / N)
  · have hb : 0 < h / N := by
      rcases Nat.eq_zero_or_pos (h / N) with h0 | h0
      · rw [h0] at hc; simp at hc
      · exact h0
    have hi : y / (h / N) < N - 1 := Nat.div_lt_of_lt_mul (by rw [Nat.mul_comm]; exact hc)
    have h1 : y / (h / N) * (h / N) ≤ y := Nat.div_mul_le_self y (h / N)
    have h2 : y < y / (h / N) * (h / N) + h / N := Nat.lt_div_mul_add hb
    refine ⟨y / (h / N), by omega, ?_, ?_⟩
    · rw [startOf_eq N h _ hhm (by omega)]; exact h1
    · rw [startOf_eq N h _ hhm (by omega), sizeOf_eq N h _ hhm (by omega), if_neg (by omega)]
      omega
  · have h1 := mul_base_le N h (N - 1) (by omega)
    have h4 : h / N * (N - 1) = (N - 1) * (h / N) := Nat.mul_comm _ _
    refine ⟨N - 1, by omega, ?_, ?_⟩
    · rw [startOf_eq N h _ hhm (by omega)]; omega
    · rw [startOf_eq N h _ hhm (by omega), sizeOf_eq N h _ hhm (by omega), if_pos (by omega), h4]
      generalize (N - 1) * (h / N) = m at h1 hc ⊢
      omega

/-! ## The filter pass -/

/-- After the first `n` workers the rows of their ranges hold the filtered
pixels. -/
theorem workers_cells (N : Nat) (image mem : List PPMPixel) (w h : Nat)
    (hw : 1 ≤ w) (hwm : w ≤ INT_MAX) (hh : 1 ≤ h) (hhm : h ≤ INT_MAX)
    (hlen : image.length = w * h) (hmem : mem.length = w * h) :
    ∀ n, n ≤ N →
      ∃ res, (List.range n).foldlM
          (fun result i => threadfn (paramsOf N image result w h i)) mem = some res ∧
        res.length = w * h ∧
        ∀ x y, x < w → y < h →
          (∃ i, i < n ∧ startOf N h i ≤ y ∧ y < startOf N h i + sizeOf N h i) →
          res[y * w + x]? = some (filteredPixel image w h x y) := by
  intro n
  induction n with
  | zero =>
    intro _
    exact ⟨mem, rfl, hmem, fun x y _ _ hex => by obtain ⟨i, hi, _⟩ := hex; omega⟩
  | succ n ih =>
    intro hn
    obtain ⟨res, hfold, hl, hcell⟩ := ih (by omega)
    obtain ⟨res2, hthr, hl2, hcell2⟩ := threadfn_cells image res w h (startOf N h n)
      (sizeOf N h n) hw hwm hh hhm hlen hl (range_le N h n hhm (by omega))
    refine ⟨res2, ?_, hl2, ?_⟩
    · rw [List.range_succ, List.foldlM_append, hfold]
      simp only [Option.bind_eq_bind, Option.some_bind, List.foldlM_cons, List.foldlM_nil]
      unfold paramsOf
      rw [hthr]
      rfl
    · intro x y hx hy hex
      rw [hcell2 x y hx hy]
      by_cases hin : startOf N h n ≤ y ∧ y < startOf N h n + sizeOf N h n
      · rw [if_pos hin]
      · rw [if_neg hin]
        obtain ⟨i, hi, h1, h2⟩ := hex
        have hne : i ≠ n := by
          intro he
          rw [he] at h1 h2
          exact hin ⟨h1, h2⟩
        exact hcell x y hx hy ⟨i, by omega, h1, h2⟩

/-- The filter pass succeeds and every cell of its result is the filtered pixel
of that cell, whatever the number of workers and the memory it started from. -/
theorem apply_filters_cells (N : Nat) (image mem : List PPMPixel) (w h : Nat)
    (hN : 1 ≤ N) (hw : 1 ≤ w) (hwm : w ≤ INT_MAX) (hh : 1 ≤ h) (hhm : h ≤ INT_MAX)
    (hlen : image.length = w * h) (hmem : mem.length = w * h) :
    ∃ res, apply_filters N image w h mem = some res ∧ res.length = w * h ∧
      ∀ x y, x < w → y < h → res[y * w + x]? = some (filteredPixel image w h x y) := by
  obtain ⟨res, hfold, hl, hcell⟩ :=
    workers_cells N image mem w h hw hwm hh hhm hlen hmem N (le_refl N)
  refine ⟨res, ?_, hl, ?_⟩
  · unfold apply_filters
    rw [if_neg (by omega)]
    exact hfold
  · intro x y hx hy
    exact hcell x y hx hy (row_covered N h y hN hhm hy)

/-- A buffer of `w * h` cells is determined by its cells `(x, y)`. -/
theorem buffer_ext (a b : List PPMPixel) (w h : Nat) (hw : 1 ≤ w)
    (ha : a.length = w * h) (hb : b.length = w * h)
    (hcell : ∀ x y, x < w → y < h → a[y * w + x]? = b[y * w + x]?) : a = b := by
  apply List.ext_getElem?
  intro i
  by_cases hi : i < w * h
  · have h1 : i % w < w := Nat.mod_lt i (by omega)
    have h2 : i / w < h := Nat.div_lt_of_lt_mul hi
    have h3 : i / w * w + i % w = i := by
      rw [Nat.mul_comm]; exact Nat.div_add_mod i w
    have := hcell (i % w) (i / w) h1 h2
    rw [h3] at this
    exact this
  · rw [List.getElem?_eq_none (by omega), List.getElem?_eq_none (by omega)]

/-! ## The clamp -/

theorem clamp_eq (v : Int) : clamp v = clamp_0_255 v := by
  unfold clamp clamp_0_255
  simp only
  split_ifs <;> omega

theorem clamp_cases (v : Int) :
    clamp v = if v < 0 then 0 else if v > 255 then 255 else v := by
  unfold clamp
  simp only
  split_ifs <;> omega

theorem clamp_range (v : Int) : 0 ≤ clamp v ∧ clamp v ≤ 255 := by
  rw [clamp_cases]
  split_ifs <;> omega

/-- The narrowing of a clamped value to `unsigned char` keeps the value. -/
theorem toUChar_clamp (v : Int) : ((toUChar (clamp v) : Nat) : Int) = clamp v := by
  have h := clamp_range v
  unfold toUChar
  omega

/-! ## Claims -/

/-- C1, amended: for an image of width `1 <= w <= INT_MAX` and height
`1 <= h <= INT_MAX` (the range of the `int` coordinates) and a target pixel `(x, y)` with `x < w` in the rows `[start, start + size)`
of a worker, `threadfn` succeeds and the cell `y * w + x` of its result holds, in
each of red, green and blue, `clamp_0_255` of the sum over `fx, fy` in `{0,1,2}`
of `source[((y-1+fy+h) mod h)*w + ((x-1+fx+w) mod w)].channel * K fx fy`, where
`K` has centre weight 8 and every other weight -1. -/
theorem threadfn_stores_convolution (image result : List PPMPixel)
    (w h start size x y : Nat)
    (hw : 1 ≤ w) (hwm : w ≤ INT_MAX) (hh : 1 ≤ h) (hhm : h ≤ INT_MAX)
    (hlen : image.length = w * h) (hres : result.length = w * h)
    (hrange : start + size ≤ h) (hx : x < w) (hy0 : start ≤ y) (hy1 : y < start + size) :
    ∃ res px, threadfn { image := image, result := result, w := w, h := h,
                         start := start, size := size } = some res ∧
      res[y * w + x]? = some px ∧
      (px.r : Int) = clamp_0_255 (∑ fx in Finset.range 3, ∑ fy in Finset.range 3,
        ((sourceAt image w h x y fx fy).r : Int) * K fx fy) ∧
      (px.g : Int) = clamp_0_255 (∑ fx in Finset.range 3, ∑ fy in Finset.range 3,
        ((sourceAt image w h x y fx fy).g : Int) * K fx fy) ∧
      (px.b : Int) = clamp_0_255 (∑ fx in Finset.range 3, ∑ fy in Finset.range 3,
        ((sourceAt image w h x y fx fy).b : Int) * K fx fy) := by
  obtain ⟨res, hthr, _, hcell⟩ :=
    threadfn_cells image result w h start size hw hwm hh hhm hlen hres hrange
  refine ⟨res, filteredPixel image w h x y, hthr, ?_, ?_, ?_, ?_⟩
  · rw [hcell x y hx (by omega), if_pos ⟨hy0, hy1⟩]
  · exact (toUChar_clamp _).trans (clamp_eq _)
  · exact (toUChar_clamp _).trans (clamp_eq _)
  · exact (toUChar_clamp _).trans (clamp_eq _)

/-- Witness of the amended C1: the second worker of two on the 3 x 2 sample image, at the
target pixel `(1, 1)`. -/
theorem threadfn_stores_convolution_witness :
    ∃ res px, threadfn { image := sample3x2, result := junk6, w := 3, h := 2,
                         start := 1, size := 1 } = some res ∧
      res[1 * 3 + 1]? = some px ∧
      (px.r : Int) = clamp_0_255 (∑ fx in Finset.range 3, ∑ fy in Finset.range 3,
        ((sourceAt sample3x2 3 2 1 1 fx fy).r : Int) * K fx fy) ∧
      (px.g : Int) = clamp_0_255 (∑ fx in Finset.range 3, ∑ fy in Finset.range 3,
        ((sourceAt sample3x2 3 2 1 1 fx fy).g : Int) * K fx fy) ∧
      (px.b : Int) = clamp_0_255 (∑ fx in Finset.range 3, ∑ fy in Finset.range 3,
        ((sourceAt sample3x2 3 2 1 1 fx fy).b : Int) * K fx fy) :=
  threadfn_stores_convolution sample3x2 junk6 3 2 1 1 1 1 (by decide) (by decide) (by decide)
    (by decide) (by decide) (by decide) (by decide) (by decide) (by decide) (by decide)

/-- The range of a worker ends no later than the range of a later worker
starts. -/
theorem ranges_ordered (N h i j : Nat) (hhm : h ≤ INT_MAX) (hij : i < j) (hj : j < N) :
    startOf N h i + sizeOf N h i ≤ startOf N h j := by
  have h1 : (i + 1) * (h / N) ≤ j * (h / N) := Nat.mul_le_mul_right _ hij
  have h2 : (i + 1) * (h / N) = i * (h / N) + h / N := by ring
  rw [startOf_eq N h i hhm (by omega), startOf_eq N h j hhm hj,
    sizeOf_eq N h i hhm (by omega), if_neg (by omega)]
  omega

/-- A row belongs to the range of one worker only. -/
theorem row_unique (N h y i j : Nat) (hhm : h ≤ INT_MAX) (hi : i < N) (hj : j < N)
    (hi0 : startOf N h i ≤ y) (hi1 : y < startOf N h i + sizeOf N h i)
    (hj0 : startOf N h j ≤ y) (hj1 : y < startOf N h j + sizeOf N h j) : i = j := by
  rcases Nat.lt_trichotomy i j with hlt | heq | hgt
  · have := ranges_ordered N h i j hhm hlt hj
    omega
  · exact heq
  · have := ranges_ordered N h j i hhm hgt hi
    omega

/-- C2, amended: for every worker count `N >= 1` and every height up to
`INT_MAX` (the range of the `int` variable `work`), the
`(start, size)` pairs of `apply_filters` are contiguous and do not overlap:
worker 0 starts at row 0, worker `i + 1` starts at `start_i + size_i`, the sizes
add up to the height, and every row of `[0, height)` lies in the range of exactly
one worker. -/
theorem partition_tiles (N h : Nat) (image result : List PPMPixel) (w : Nat)
    (hN : 1 ≤ N) (hhm : h ≤ INT_MAX) :
    (paramsOf N image result w h 0).start = 0 ∧
    (∀ i, i + 1 < N →
      (paramsOf N image result w h (i + 1)).start =
        (paramsOf N image result w h i).start + (paramsOf N image result w h i).size) ∧
    ((List.range N).map (fun i => (paramsOf N image result w h i).size)).sum = h ∧
    (∀ y, y < h → ∃! i, i < N ∧ (paramsOf N image result w h i).start ≤ y ∧
      y < (paramsOf N image result w h i).start + (paramsOf N image result w h i).size) := by
  refine ⟨?_, ?_, ?_, ?_⟩
  · simp only [paramsOf]
    rw [startOf_eq N h 0 hhm (by omega)]
    simp
  · intro i hi
    simp only [paramsOf]
    rw [startOf_eq N h (i + 1) hhm hi, startOf_eq N h i hhm (by omega),
      sizeOf_eq N h i hhm (by omega), if_neg (by omega)]
    ring
  · exact sizes_sum N h hN hhm
  · intro y hy
    simp only [paramsOf]
    obtain ⟨i, hi, h0, h1⟩ := row_covered N h y hN hhm hy
    refine ⟨i, ⟨hi, h0, h1⟩, ?_⟩
    rintro j ⟨hj, hj0, hj1⟩
    exact row_unique N h y j i hhm hj hi hj0 hj1 h0 h1

/-- Witness of the amended C2: ten rows for four workers. -/
theorem partition_tiles_witness :
    (paramsOf 4 sample3x2 junk6 3 10 0).start = 0 ∧
    (∀ i, i + 1 < 4 →
      (paramsOf 4 sample3x2 junk6 3 10 (i + 1)).start =
        (paramsOf 4 sample3x2 junk6 3 10 i).start + (paramsOf 4 sample3x2 junk6 3 10 i).size) ∧
    ((List.range 4).map (fun i => (paramsOf 4 sample3x2 junk6 3 10 i).size)).sum = 10 ∧
    (∀ y, y < 10 → ∃! i, i < 4 ∧ (paramsOf 4 sample3x2 junk6 3 10 i).start ≤ y ∧
      y < (paramsOf 4 sample3x2 junk6 3 10 i).start + (paramsOf 4 sample3x2 junk6 3 10 i).size) :=
  partition_tiles 4 10 sample3x2 junk6 3 (by decide) (by decide)

/-- The rows of the last worker: the base size plus the remainder of the
division. -/
theorem last_size_bounds (N h : Nat) (hN : 1 ≤ N) :
    h - h / N * (N - 1) + h / N * (N - 1) = h ∧
    h / N ≤ h - h / N * (N - 1) ∧
    h - h / N * (N - 1) ≤ h / N + (N - 1) := by
  have h3 : N * (h / N) + h % N = h := Nat.div_add_mod h N
  have h4 : h % N < N := Nat.mod_lt h (by omega)
  have h5 : N * (h / N) = h / N * (N - 1) + h / N := by
    obtain ⟨n, rfl⟩ : ∃ n, N = n + 1 := ⟨N - 1, by omega⟩
    simp only [Nat.add_sub_cancel]
    ring
  generalize h / N * (N - 1) = m at h5 ⊢
  generalize N * (h / N) = q at h3 h5
  generalize h / N = b at h5 ⊢
  generalize h % N = r at h3 h4
  omega

/-- C3, amended: for every worker count `N >= 1` and every height up to
`INT_MAX` (the range of the `int` variable `work`), with
`base = height / N`, each of the workers `0 .. N-2` gets `base` rows and the last
worker gets `height - base * (N - 1)` rows, which is `base` plus at least 0 and at
most `N - 1` rows; for `N = 1` the single range starts at 0 and has `height`
rows. -/
theorem partition_sizes (N h : Nat) (image result : List PPMPixel) (w : Nat)
    (hN : 1 ≤ N) (hhm : h ≤ INT_MAX) :
    (∀ i, i + 1 < N → (paramsOf N image result w h i).size = h / N) ∧
    (paramsOf N image result w h (N - 1)).size + h / N * (N - 1) = h ∧
    (paramsOf N image result w h (N - 1)).size = h - h / N * (N - 1) ∧
    h / N ≤ (paramsOf N image result w h (N - 1)).size ∧
    (paramsOf N image result w h (N - 1)).size ≤ h / N + (N - 1) ∧
    (paramsOf 1 image result w h 0).start = 0 ∧
    (paramsOf 1 image result w h 0).size = h := by
  have hlast : (paramsOf N image result w h (N - 1)).size = h - h / N * (N - 1) := by
    simp only [paramsOf]
    rw [sizeOf_eq N h (N - 1) hhm (by omega), if_pos (by omega)]
  have hb := last_size_bounds N h hN
  refine ⟨?_, ?_, hlast, ?_, ?_, ?_, ?_⟩
  · intro i hi
    simp only [paramsOf]
    rw [sizeOf_eq N h i hhm (by omega), if_neg (by omega)]
  · rw [hlast]; exact hb.1
  · rw [hlast]; exact hb.2.1
  · rw [hlast]; exact hb.2.2
  · simp only [paramsOf]
    rw [startOf_eq 1 h 0 hhm (by omega)]
    simp
  · simp only [paramsOf]
    rw [sizeOf_eq 1 h 0 hhm (by omega), if_pos rfl]
    simp

/-- Witness of the amended C3: ten rows for four workers. -/
theorem partition_sizes_witness :
    (∀ i, i + 1 < 4 → (paramsOf 4 sample3x2 junk6 3 10 i).size = 10 / 4) ∧
    (paramsOf 4 sample3x2 junk6 3 10 (4 - 1)).size + 10 / 4 * (4 - 1) = 10 ∧
    (paramsOf 4 sample3x2 junk6 3 10 (4 - 1)).size = 10 - 10 / 4 * (4 - 1) ∧
    10 / 4 ≤ (paramsOf 4 sample3x2 junk6 3 10 (4 - 1)).size ∧
    (paramsOf 4 sample3x2 junk6 3 10 (4 - 1)).size ≤ 10 / 4 + (4 - 1) ∧
    (paramsOf 1 sample3x2 junk6 3 10 0).start = 0 ∧
    (paramsOf 1 sample3x2 junk6 3 10 0).size = 10 :=
  partition_sizes 4 10 sample3x2 junk6 3 (by decide) (by decide)

/-- C4: for an image with `w >= 1` and `h >= 1` (dimensions within `int`) and a
worker count `N > 1`, the filter pass over the `N` partitions of `apply_filters`
gives the same result buffer, cell for cell, as the pass with one worker over the
rows `[0, h)`, whatever the two allocated buffers held before. -/
theorem partition_does_not_change_output (N : Nat) (image mem mem1 : List PPMPixel)
    (w h : Nat) (hN : 1 < N) (hw : 1 ≤ w) (hwm : w ≤ INT_MAX) (hh : 1 ≤ h)
    (hhm : h ≤ INT_MAX) (hlen : image.length = w * h) (hmem : mem.length = w * h)
    (hmem1 : mem1.length = w * h) :
    ∃ res, apply_filters N image w h mem = some res ∧
      apply_filters 1 image w h mem1 = some res := by
  obtain ⟨res, hres, hl, hcell⟩ :=
    apply_filters_cells N image mem w h (by omega) hw hwm hh hhm hlen hmem
  obtain ⟨res1, hres1, hl1, hcell1⟩ :=
    apply_filters_cells 1 image mem1 w h (le_refl 1) hw hwm hh hhm hlen hmem1
  have he : res1 = res :=
    buffer_ext res1 res w h hw hl1 hl
      (fun x y hx hy => by rw [hcell x y hx hy, hcell1 x y hx hy])
  exact ⟨res, hres, by rw [hres1, he]⟩

/-- Witness of C4: the 3 x 2 sample image with two workers. -/
theorem partition_does_not_change_output_witness :
    ∃ res, apply_filters 2 sample3x2 3 2 junk6 = some res ∧
      apply_filters 1 sample3x2 3 2 sample3x2 = some res :=
  partition_does_not_change_output 2 sample3x2 junk6 sample3x2 3 2 (by decide) (by decide)
    (by decide) (by decide) (by decide) (by decide) (by decide) (by decide)

theorem isClampOf_clamp (s : Int) : IsClampOf (toUChar (clamp s)) s := by
  have h1 := toUChar_clamp s
  have h2 := clamp_range s
  refine ⟨?_, ?_, ?_⟩
  · rw [h1, clamp_eq]; rfl
  · rw [h1, clamp_cases]
  · omega

/-- C5: for every source image and every target pixel of a worker (dimensions
within `int`), the value `threadfn` stores in each channel is
`min 255 (max 0 s)` for the accumulated sum `s` of that channel: 0 when `s < 0`,
255 when `s > 255` and `s` otherwise; so the channel lies in `[0, 255]` and the
narrowing to `unsigned char` does not wrap. -/
theorem threadfn_stores_clamped (image result : List PPMPixel)
    (w h start size x y : Nat)
    (hw : 1 ≤ w) (hwm : w ≤ INT_MAX) (hh : 1 ≤ h) (hhm : h ≤ INT_MAX)
    (hlen : image.length = w * h) (hres : result.length = w * h)
    (hrange : start + size ≤ h) (hx : x < w) (hy0 : start ≤ y) (hy1 : y < start + size) :
    ∃ res acc px, threadfn { image := image, result := result, w := w, h := h,
                             start := start, size := size } = some res ∧
      kernelLoop image w h x y = some acc ∧
      res[y * w + x]? = some px ∧
      IsClampOf px.r acc.red ∧ IsClampOf px.g acc.green ∧ IsClampOf px.b acc.blue := by
  obtain ⟨res, hthr, _, hcell⟩ :=
    threadfn_cells image result w h start size hw hwm hh hhm hlen hres hrange
  refine ⟨res, _, filteredPixel image w h x y, hthr,
    kernelLoop_eq image w h x y hw hwm hh hhm hlen hx (by omega), ?_, ?_, ?_, ?_⟩
  · rw [hcell x y hx (by omega), if_pos ⟨hy0, hy1⟩]
  · exact isClampOf_clamp _
  · exact isClampOf_clamp _
  · exact isClampOf_clamp _

/-- Witness of C5: the single worker on the 3 x 2 sample image, at the target
pixel `(2, 1)`. -/
theorem threadfn_stores_clamped_witness :
    ∃ res acc px, threadfn { image := sample3x2, result := junk6, w := 3, h := 2,
                             start := 0, size := 2 } = some res ∧
      kernelLoop sample3x2 3 2 2 1 = some acc ∧
      res[1 * 3 + 2]? = some px ∧
      IsClampOf px.r acc.red ∧ IsClampOf px.g acc.green ∧ IsClampOf px.b acc.blue :=
  threadfn_stores_clamped sample3x2 junk6 3 2 0 2 2 1 (by decide) (by decide) (by decide)
    (by decide) (by decide) (by decide) (by decide) (by decide) (by decide) (by decide)

/-- C6, amended: for an image of width `1 <= w <= INT_MAX` and height
`1 <= h <= INT_MAX` (the range of the `int` coordinates), the sample of the target pixel `(0, 0)` at the kernel offset `(0, 0)` has
`(imagex, imagey) = (w - 1, h - 1)`: the read is the last cell of the image,
`image[(h - 1) * w + (w - 1)]`, reached by wrapping. -/
theorem origin_samples_opposite_corner (image : List PPMPixel) (w h : Nat)
    (hw : 1 ≤ w) (hwm : w ≤ INT_MAX) (hh : 1 ≤ h) (hhm : h ≤ INT_MAX)
    (hlen : image.length = w * h) :
    imagex w 0 0 = some ((w : Int) - 1) ∧
    imagey h 0 0 = some ((h : Int) - 1) ∧
    (∃ px, sample image w h 0 0 0 0 = some px ∧ image[(h - 1) * w + (w - 1)]? = some px) := by
  have ex : imagex w 0 0 = some ((w : Int) - 1) := by
    rw [imagex_eq w 0 0 hw hwm (by omega) (by omega)]
    congr 1
    rw [Int.emod_eq_of_lt (by push_cast; omega) (by push_cast; omega)]
    push_cast; omega
  have ey : imagey h 0 0 = some ((h : Int) - 1) := by
    rw [imagey_eq h 0 0 hh hhm (by omega) (by omega)]
    congr 1
    rw [Int.emod_eq_of_lt (by push_cast; omega) (by push_cast; omega)]
    push_cast; omega
  refine ⟨ex, ey, ?_⟩
  have hc := cell_lt w h (w - 1) (h - 1) (by omega) (by omega)
  have hd := dims_lt w h hwm hhm
  have he : ((h : Int) - 1) * w + ((w : Int) - 1) = (((h - 1) * w + (w - 1) : Nat) : Int) := by
    push_cast [Nat.cast_sub hw, Nat.cast_sub hh]; ring
  have hi : imageIndex w ((w : Int) - 1) ((h : Int) - 1) = (h - 1) * w + (w - 1) := by
    unfold imageIndex
    rw [he]
    generalize (h - 1) * w + (w - 1) = m at hc ⊢
    rw [toULong_eq _ (by positivity) (by omega)]
    exact Int.toNat_natCast _
  have hb : (h - 1) * w + (w - 1) < image.length := by omega
  refine ⟨image[(h - 1) * w + (w - 1)], ?_, List.getElem?_eq_getElem hb⟩
  unfold sample
  rw [ex, ey]
  simp only [Option.bind_eq_bind, Option.some_bind, hi]
  exact List.getElem?_eq_getElem (by omega)

/-- Witness of the amended C6: the 3 x 2 sample image. -/
theorem origin_samples_opposite_corner_witness :
    imagex 3 0 0 = some ((3 : Nat) - 1 : Int) ∧
    imagey 2 0 0 = some ((2 : Nat) - 1 : Int) ∧
    (∃ px, sample sample3x2 3 2 0 0 0 0 = some px ∧
      sample3x2[(2 - 1) * 3 + (3 - 1)]? = some px) :=
  origin_samples_opposite_corner sample3x2 3 2 (by decide) (by decide) (by decide)
    (by decide) (by decide)

/-- In a flat image every sample is the colour of the image. -/
theorem sourceAt_flat (c : PPMPixel) (w h x y fx fy : Nat) (hw : 1 ≤ w) (hh : 1 ≤ h) :
    sourceAt (List.replicate (w * h) c) w h x y fx fy = c := by
  have hwp : (0 : Int) < w := by omega
  have hhp : (0 : Int) < h := by omega
  have a1 := Int.emod_nonneg ((x : Int) - 1 + fx + w) (ne_of_gt hwp)
  have a2 := Int.emod_lt_of_pos ((x : Int) - 1 + fx + w) hwp
  have b1 := Int.emod_nonneg ((y : Int) - 1 + fy + h) (ne_of_gt hhp)
  have b2 := Int.emod_lt_of_pos ((y : Int) - 1 + fy + h) hhp
  unfold sourceAt
  generalize ((x : Int) - 1 + fx + w) % w = ix at a1 a2
  generalize ((y : Int) - 1 + fy + h) % h = iy at b1 b2
  lift ix to ℕ using a1
  lift iy to ℕ using b1
  have hc := cell_lt w h ix iy (by exact_mod_cast a2) (by exact_mod_cast b2)
  have he : ((iy : Int) * w + ix) = ((iy * w + ix : Nat) : Int) := by push_cast; ring
  rw [he, Int.toNat_natCast, List.getD_eq_getElem?_getD,
    List.getElem?_eq_getElem (by rw [List.length_replicate]; exact hc)]
  simp

/-- The filter puts `(0, 0, 0)` at every cell of a flat image. -/
theorem filteredPixel_flat (c : PPMPixel) (w h x y : Nat) (hw : 1 ≤ w) (hh : 1 ≤ h) :
    filteredPixel (List.replicate (w * h) c) w h x y = { r := 0, g := 0, b := 0 } := by
  have hs : ∀ chan : PPMPixel → Nat, kernelSum chan (List.replicate (w * h) c) w h x y = 0 := by
    intro chan
    unfold kernelSum
    simp only [sourceAt_flat c w h x y _ _ hw hh, Finset.sum_range_succ, Finset.sum_range_zero, K]
    simp
    ring
  unfold filteredPixel
  rw [hs, hs, hs]
  rfl

/-- C7: for every flat image, all of whose pixels have the same colour `c`
(width and height at least 1 and within `int`; in particular the `N x N` images
and the 2 x 2 image of `(100, 100, 100)`), and every worker count, the filtered
result has every pixel equal to `(0, 0, 0)`. -/
theorem flat_image_filters_to_zero (N w h : Nat) (c : PPMPixel) (mem : List PPMPixel)
    (hN : 1 ≤ N) (hw : 1 ≤ w) (hwm : w ≤ INT_MAX) (hh : 1 ≤ h) (hhm : h ≤ INT_MAX)
    (hmem : mem.length = w * h) :
    apply_filters N (List.replicate (w * h) c) w h mem =
      some (List.replicate (w * h) { r := 0, g := 0, b := 0 }) := by
  obtain ⟨res, hres, hl, hcell⟩ := apply_filters_cells N (List.replicate (w * h) c) mem w h
    hN hw hwm hh hhm (List.length_replicate _ _) hmem
  rw [hres]
  congr 1
  apply buffer_ext res _ w h hw hl (List.length_replicate _ _)
  intro x y hx hy
  rw [hcell x y hx hy, filteredPixel_flat c w h x y hw hh,
    List.getElem?_eq_getElem (by rw [List.length_replicate]; exact cell_lt w h x y hx hy)]
  simp

/-- Witness of C7: the 2 x 2 image whose pixels are all `(100, 100, 100)`. -/
theorem flat_image_filters_to_zero_witness :
    apply_filters 1 (List.replicate (2 * 2) { r := 100, g := 100, b := 100 }) 2 2 flat2x2 =
      some (List.replicate (2 * 2) { r := 0, g := 0, b := 0 }) :=
  flat_image_filters_to_zero 1 2 2 { r := 100, g := 100, b := 100 } flat2x2 (by decide)
    (by decide) (by decide) (by decide) (by decide) (by decide)

/-! ## Configuration of the filter pass -/

theorem foldlM_keep {α β : Type} (f : β → α → Option β) (b : β) :
    ∀ l : List α, (∀ a ∈ l, f b a = some b) → l.foldlM f b = some b := by
  intro l
  induction l with
  | nil => intro _; rfl
  | cons a t ih =>
    intro hf
    rw [List.foldlM_cons, hf a (List.mem_cons_self a t)]
    exact ih (fun a' ha' => hf a' (List.mem_cons_of_mem a ha'))

/-- A worker whose range is empty returns the result buffer as it got it. -/
theorem threadfn_empty_range (image result : List PPMPixel) (w h start : Nat) :
    threadfn { image := image, result := result, w := w, h := h,
               start := start, size := 0 } = some result := by
  unfold threadfn
  exact foldlM_keep _ _ _ (fun x _ => rfl)

/-- Counterexample to C8: for an image of height 0 and four workers the filter
pass reports no error and returns the (empty) result buffer. -/
theorem height_zero_is_accepted : apply_filters 4 [] 3 0 [] = some [] := by
  decide

/-- C8, amended: `apply_filters` does not check its configuration; for an image
of height 0 and a worker count `N >= 1` it does not fail: every worker gets an
empty row range and the allocated buffer is returned as it is. -/
theorem height_zero_returns_buffer (N : Nat) (image mem : List PPMPixel) (w : Nat)
    (hN : 1 ≤ N) :
    (∀ i, i < N → (paramsOf N image mem w 0 i).size = 0) ∧
    apply_filters N image w 0 mem = some mem := by
  have hs : ∀ i, i < N → sizeOf N 0 i = 0 := by
    intro i hi
    rw [sizeOf_eq N 0 i (by decide) hi]
    split <;> simp
  refine ⟨fun i hi => by simp only [paramsOf]; exact hs i hi, ?_⟩
  unfold apply_filters
  rw [if_neg (by omega)]
  apply foldlM_keep
  intro i hi
  simp only [paramsOf]
  rw [hs i (List.mem_range.mp hi)]
  exact threadfn_empty_range image mem w 0 _

/-- Witness of the amended C8: four workers, width 3, height 0. -/
theorem height_zero_returns_buffer_witness :
    (∀ i, i < 4 → (paramsOf 4 [] [] 3 0 i).size = 0) ∧
    apply_filters 4 [] 3 0 [] = some [] :=
  height_zero_returns_buffer 4 [] [] 3 (by decide)

/-! ## Reading what was written -/

/-- C9, the code at failing inputs: `readImage` does not decode the files
`writeImage` produces. For the 1 x 1 buffer `[(0, 0, 0)]` and for the 3 x 2 sample
image it ends with the colour mode error, whatever the indeterminate values
are. -/
theorem readImage_rejects_written_file (ind : Indeterminate) :
    writeImage [{ r := 0, g := 0, b := 0 }] 1 1 =
      some [80, 54, 10, 49, 32, 49, 10, 50, 53, 53, 10, 0, 0, 0] ∧
    readImage ind (writeImage [{ r := 0, g := 0, b := 0 }] 1 1) =
      .error .invalidColorMode ∧
    readImage ind (writeImage sample3x2 3 2) = .error .invalidColorMode := by
  have e1 : writeImage [{ r := 0, g := 0, b := 0 }] 1 1 =
      some [80, 54, 10, 49, 32, 49, 10, 50, 53, 53, 10, 0, 0, 0] := by decide
  have e2 : writeImage sample3x2 3 2 =
      some [80, 54, 10, 51, 32, 50, 10, 50, 53, 53, 10, 1, 2, 3, 10, 20, 30, 7, 8, 9,
        0, 0, 200, 50, 60, 70, 255, 255, 255] := by decide
  refine ⟨e1, ?_, ?_⟩
  · rw [e1]
    by_cases hc : ind.curr = 10
    · simp [readImage, scanString, skipSpace, isspace, cstr, hc, scanLong, scanNumber,
        isdigit, atoi, digitsValue, toULong, toCInt]
    · simp [readImage, scanString, skipSpace, isspace, cstr, hc, skipLine, scanLong,
        scanNumber, isdigit, atoi, digitsValue, toULong, toCInt]
  · rw [e2]
    by_cases hc : ind.curr = 10
    · simp [readImage, scanString, skipSpace, isspace, cstr, hc, scanLong, scanNumber,
        isdigit, atoi, digitsValue, toULong, toCInt]
    · simp [readImage, scanString, skipSpace, isspace, cstr, hc, skipLine, scanLong,
        scanNumber, isdigit, atoi, digitsValue, toULong, toCInt]

/-- With one comment line after the magic token the same pixel is decoded. -/
theorem readImage_with_comment_line :
    readImage zeroed (some p6File) = .ok ([{ r := 7, g := 8, b := 9 }], 1, 1) := rfl

/-! ## The magic token -/

/-- C10, the code at a failing input: a file whose magic token is `P5` is
decoded like a P6 file; `readImage` returns a pixel buffer and no diagnostic is
printed. -/
theorem readImage_accepts_wrong_magic :
    (scanString p5File).1 = some [80, 53] ∧
    readImage zeroed (some p5File) = .ok ([{ r := 7, g := 8, b := 9 }], 1, 1) :=
  ⟨rfl, rfl⟩

/-- A token read by `%s` holds no white space, so its C string is never the
string `P6\n` of the format test. -/
theorem scanString_token (s tok : List Nat) (h : (scanString s).1 = some tok) :
    cstr tok ≠ [80, 54, 10] := by
  unfold scanString at h
  split at h
  · simp at h
  · rename_i c cs _
    simp only [Option.some.injEq] at h
    intro he
    have h1 : (10 : Nat) ∈ cstr tok := by rw [he]; simp
    have h2 : (10 : Nat) ∈ tok := (List.takeWhile_sublist _).subset h1
    rw [← h] at h2
    have h3 := List.mem_takeWhile_imp h2
    simp [isspace] at h3

/-- The test of the magic token never fails once a token is read: whatever the
first token of the file is, `readImage` does not end with the file type
diagnostic. -/
theorem format_test_never_fails (ind : Indeterminate) (s tok : List Nat)
    (h : (scanString s).1 = some tok) :
    readImage ind (some s) ≠ .error .invalidFileType := by
  have h1 := scanString_token s tok h
  unfold readImage
  simp only [h, Option.getD_some, if_neg h1]
  split
  · simp
  · split <;> [simp; (split <;> simp)]

/-! ## Truncated pixel data -/

/-- C11, the code at a failing input: for a file that declares 2 x 1 pixels and
holds three of the six bytes, `readImage` returns a buffer (its second pixel is
the memory as allocated) with width 2 and height 1; only a file with no pixel
byte at all ends with the read error. -/
theorem readImage_accepts_truncated_file :
    readImage zeroed (some truncatedFile) =
      .ok ([{ r := 7, g := 8, b := 9 }, { r := 0, g := 0, b := 0 }], 2, 1) ∧
    readImage zeroed (some headerOnlyFile) = .error .readError :=
  ⟨rfl, rfl⟩

/-! ## The name of the output file -/

theorem cstr_cons_ne (c : Nat) (cs : List Nat) (hc : c ≠ 0) : cstr (c :: cs) = c :: cstr cs := by
  unfold cstr
  rw [List.takeWhile_cons_of_pos (by simpa using hc)]

theorem cstr_nul (cs : List Nat) : cstr (0 :: cs) = [] := by
  unfold cstr
  rw [List.takeWhile_cons_of_neg (by simp)]

/-- The C string of a string without NUL followed by its terminator. -/
theorem cstr_terminated (s t : List Nat) (hs : 0 ∉ s) : cstr (s ++ 0 :: t) = s := by
  induction s with
  | nil => exact cstr_nul t
  | cons c cs ih =>
    have hc : c ≠ 0 := fun h => hs (by rw [h]; exact List.mem_cons_self 0 cs)
    rw [List.cons_append, cstr_cons_ne c _ hc, ih (fun h => hs (List.mem_cons_of_mem c h))]

/-- The token scan keeps the bytes before the first `.` of the string. -/
theorem cutAtDot_spec (s : List Nat) (hs : 0 ∉ s) :
    ∃ tok rest, s = tok ++ rest ∧ 46 ∉ tok ∧ (rest = [] ∨ rest.head? = some 46) ∧
      cstr (cutAtDot (s ++ [0])) = tok := by
  induction s with
  | nil => exact ⟨[], [], rfl, by simp, Or.inl rfl, by simp [cutAtDot, cstr_nul]⟩
  | cons c cs ih =>
    have hc : c ≠ 0 := fun h => hs (by rw [h]; exact List.mem_cons_self 0 cs)
    by_cases hd : c = 46
    · refine ⟨[], c :: cs, rfl, by simp, Or.inr (by simp [hd]), ?_⟩
      rw [List.cons_append, cutAtDot, if_neg hc, if_pos hd, cstr_nul]
    · obtain ⟨tok, rest, he, ht, hr, hcut⟩ := ih (fun h => hs (List.mem_cons_of_mem c h))
      refine ⟨c :: tok, rest, by rw [he]; rfl, ?_, hr, ?_⟩
      · intro hm
        rcases List.mem_cons.mp hm with h | h
        · exact hd h.symm
        · exact ht h
      · rw [List.cons_append, cutAtDot, if_neg hc, if_neg hd, cstr_cons_ne c _ hc, hcut]

/-- The call of `strtok` keeps the leading `.` bytes and the bytes up to the
first `.` after them. -/
theorem strtokDot_spec (s : List Nat) (hs : 0 ∉ s) :
    ∃ dots tok rest, s = dots ++ tok ++ rest ∧ (∀ c ∈ dots, c = 46) ∧ 46 ∉ tok ∧
      (rest = [] ∨ (tok ≠ [] ∧ rest.head? = some 46)) ∧
      cstr (strtokDot (s ++ [0])) = dots ++ tok := by
  induction s with
  | nil => exact ⟨[], [], [], rfl, by simp, by simp, Or.inl rfl, by simp [strtokDot, cutAtDot, cstr_nul]⟩
  | cons c cs ih =>
    have hc : c ≠ 0 := fun h => hs (by rw [h]; exact List.mem_cons_self 0 cs)
    by_cases hd : c = 46
    · obtain ⟨dots, tok, rest, he, hdots, ht, hr, hcut⟩ :=
        ih (fun h => hs (List.mem_cons_of_mem c h))
      refine ⟨c :: dots, tok, rest, by rw [he]; rfl, ?_, ht, hr, ?_⟩
      · intro c' hm
        rcases List.mem_cons.mp hm with h | h
        · rw [h]; exact hd
        · exact hdots c' h
      · rw [List.cons_append, strtokDot, if_pos hd, cstr_cons_ne c _ hc, hcut]
        rfl
    · obtain ⟨tok, rest, he, ht, hr, hcut⟩ := cutAtDot_spec (c :: cs) hs
      have hne : tok ≠ [] := by
        intro h0
        rw [h0] at he
        rcases hr with h | h
        · rw [h] at he; simp at he
        · rw [List.nil_append] at he
          rw [← he] at h
          simp at h
          exact hd h
      refine ⟨[], tok, rest, by rw [he]; rfl, by simp, ht, ?_, ?_⟩
      · rcases hr with h | h
        · exact Or.inl h
        · exact Or.inr ⟨hne, h⟩
      · rw [List.cons_append, strtokDot, if_neg hd, ← List.cons_append, hcut]
        rfl

/-- Counterexample to C12: for the input `a.b.ppm` the name opened is
`a_laplacian.ppm`, not `a.b_laplacian.ppm`; for `pics.v2/img.ppm` it is
`pics_laplacian.ppm`. The dot before the extension and what follows it are
lost. -/
theorem earlier_dot_cuts_name :
    outputfile dottedName = some (bytesOfString "a_laplacian.ppm") ∧
    outputfile dottedName ≠ some (stripExtension dottedName ++ laplacianSuffix) ∧
    outputfile dottedDirName = some (bytesOfString "pics_laplacian.ppm") ∧
    outputfile dottedDirName ≠ some (stripExtension dottedDirName ++ laplacianSuffix) := by
  decide

/-- C12, amended: for an input path short enough for the name buffer, the name
`writeImage` opens is the input path cut at the first `.` that follows a byte
other than `.` (the whole path when there is none), followed by
`_laplacian.ppm`: the path is `dots ++ tok ++ rest` with `dots` its leading `.`
bytes, `tok` free of `.`, and `rest` empty or starting with `.` after a
non-empty `tok`, and the name is `dots ++ tok ++ "_laplacian.ppm"`. -/
theorem outputfile_cut_at_first_dot (name : List Nat) (hnul : 0 ∉ name)
    (hlen : name.length + laplacianSuffix.length + 1 ≤ 128) :
    ∃ dots tok rest, name = dots ++ tok ++ rest ∧ (∀ c ∈ dots, c = 46) ∧ 46 ∉ tok ∧
      (rest = [] ∨ (tok ≠ [] ∧ rest.head? = some 46)) ∧
      outputfile name = some (dots ++ tok ++ laplacianSuffix) := by
  obtain ⟨dots, tok, rest, he, hdots, ht, hr, hcut⟩ := strtokDot_spec name hnul
  refine ⟨dots, tok, rest, he, hdots, ht, hr, ?_⟩
  have hl : (dots ++ tok).length ≤ name.length := by
    rw [he, List.length_append (dots ++ tok) rest]; omega
  have hsuf : (0 : Nat) ∉ laplacianSuffix := by decide
  have hkeep : (0 : Nat) ∉ dots ++ tok := by
    intro h
    apply hnul
    rw [he]
    exact List.mem_append_left rest h
  unfold outputfile
  rw [if_neg (by omega)]
  simp only [hcut]
  rw [if_neg (by omega)]
  congr 1
  unfold strcat
  rw [hcut, List.append_assoc (dots ++ tok) laplacianSuffix [0]]
  have hall : (0 : Nat) ∉ (dots ++ tok) ++ laplacianSuffix := by
    intro h
    rcases List.mem_append.mp h with h | h
    · exact hkeep h
    · exact hsuf h
  rw [← List.append_assoc (dots ++ tok) laplacianSuffix [0]]
  exact cstr_terminated _ [] hall

/-- Witness of the amended C12: the input `./pics/img.ppm`. -/
theorem outputfile_cut_at_first_dot_witness :
    ∃ dots tok rest, relativeName = dots ++ tok ++ rest ∧ (∀ c ∈ dots, c = 46) ∧ 46 ∉ tok ∧
      (rest = [] ∨ (tok ≠ [] ∧ rest.head? = some 46)) ∧
      outputfile relativeName = some (dots ++ tok ++ laplacianSuffix) :=
  outputfile_cut_at_first_dot relativeName (by decide) (by decide)

/-! ## The command line -/

/-- The argument check lets the count 3 through as well as the count 2, and
nothing else. -/
theorem main_usage_iff (ind : Indeterminate) (N : Nat) (argc : Int) (argv1 : List Nat)
    (file : Option (List Nat)) (alloc : Nat → List PPMPixel) :
    (main ind N argc argv1 file alloc).fileRead = true ↔ (argc = 2 ∨ argc = 3) := by
  unfold main
  by_cases hc : argc < 2 ∨ argc > 3
  · rw [if_pos hc]
    constructor
    · intro h; simp at h
    · intro h; omega
  · rw [if_neg hc]
    constructor
    · intro _; omega
    · intro _
      split <;> rfl

/-- After the argument check the run does not reach an exit status 0: a file
that is read without error is followed by the store through the uninitialised
pointer. -/
theorem main_never_succeeds (ind : Indeterminate) (N : Nat) (argc : Int) (argv1 : List Nat)
    (file : Option (List Nat)) (alloc : Nat → List PPMPixel) :
    (main ind N argc argv1 file alloc).status ≠ some 0 ∧
    (main ind N argc argv1 file alloc).written = none := by
  unfold main
  split
  · exact ⟨by simp, rfl⟩
  · split <;> exact ⟨by simp [storeThroughImg], rfl⟩

/-- C13, the code at the failing input `argc = 3` (two positional arguments):
the usage diagnostic is not printed and `readImage` is called, whatever the
arguments and the file are. With a file that cannot be opened the run ends with
status 1 only after that attempt, inside `readImage`; with the P6 sample file
the file is read and the run is then stopped at the store through `img`, as it
is with one argument. -/
theorem main_accepts_two_arguments (ind : Indeterminate) (N : Nat) (argv1 : List Nat)
    (file : Option (List Nat)) (alloc : Nat → List PPMPixel) :
    (main ind N 3 argv1 file alloc).usage = false ∧
    (main ind N 3 argv1 file alloc).fileRead = true ∧
    main zeroed 1 3 relativeName none zeroAlloc =
      { status := some 1, usage := false, fileRead := true, written := none } ∧
    main zeroed 1 3 relativeName (some p6File) zeroAlloc =
      { status := none, usage := false, fileRead := true, written := none } ∧
    main zeroed 1 2 relativeName (some p6File) zeroAlloc =
      { status := none, usage := false, fileRead := true, written := none } ∧
    main zeroed 1 4 relativeName (some p6File) zeroAlloc =
      { status := some 1, usage := true, fileRead := false, written := none } := by
  refine ⟨?_, (main_usage_iff ind N 3 argv1 file alloc).mpr (Or.inr rfl), by decide, by decide,
    by decide, by decide⟩
  unfold main
  rw [if_neg (by omega)]
  split <;> rfl

/-! ## The elapsed time -/

/-- C14, the code at a failing input: from the start `(100 s, 900000 us)` to the
end `(101 s, 100000 us)`, 0.2 seconds later, the value stored in `*elapsedTime`
is `-0.8`: the seconds are divided by `1000000` where they should be multiplied,
so they are lost, and the value is negative. -/
theorem elapsedTime_loses_seconds :
    elapsedTicks { tv_sec := 100, tv_usec := 900000 } { tv_sec := 101, tv_usec := 100000 } =
      -800000 ∧
    elapsedTime { tv_sec := 100, tv_usec := 900000 } { tv_sec := 101, tv_usec := 100000 } =
      -4 / 5 ∧
    wallClockSeconds { tv_sec := 100, tv_usec := 900000 } { tv_sec := 101, tv_usec := 100000 } =
      1 / 5 ∧
    elapsedTime { tv_sec := 100, tv_usec := 900000 } { tv_sec := 101, tv_usec := 100000 } < 0 := by
  have h : elapsedTicks { tv_sec := 100, tv_usec := 900000 }
      { tv_sec := 101, tv_usec := 100000 } = -800000 := by decide
  refine ⟨h, ?_, ?_, ?_⟩
  · unfold elapsedTime; rw [h]; norm_num
  · unfold wallClockSeconds; norm_num
  · unfold elapsedTime; rw [h]; norm_num

/-! ## The writes of the workers -/

/-- A loop with a log is the loop without it, beside the list of the logged
indices. -/
theorem foldlM_log {κ β γ : Type} (idx : κ → γ) (step : β → κ → Option β)
    (stepLog : β × List γ → κ → Option (β × List γ)) :
    ∀ (keys : List κ) (b : β) (log : List γ),
      (∀ k ∈ keys, ∀ st, stepLog st k = (step st.1 k).map (fun r => (r, st.2 ++ [idx k]))) →
      keys.foldlM stepLog (b, log) =
        (keys.foldlM step b).map (fun r => (r, log ++ keys.map idx)) := by
  intro keys
  induction keys with
  | nil => intro b log _; simp
  | cons k t ih =>
    intro b log hstep
    rw [List.foldlM_cons, List.foldlM_cons, hstep k (List.mem_cons_self k t)]
    cases hb : step b k with
    | none => rfl
    | some b1 =>
      simp only [Option.map_some', Option.bind_eq_bind, Option.some_bind]
      rw [ih b1 (log ++ [idx k]) (fun k' hk' st => hstep k' (List.mem_cons_of_mem k hk') st)]
      simp

theorem mem_pairs (w start size : Nat) (k : Nat × Nat) :
    k ∈ (List.range w).flatMap (fun x => (List.range' start size).map (fun y => (x, y))) ↔
      k.1 < w ∧ start ≤ k.2 ∧ k.2 < start + size := by
  rw [List.mem_flatMap]
  constructor
  · rintro ⟨x, hx, hk⟩
    rw [List.mem_map] at hk
    obtain ⟨y, hy, rfl⟩ := hk
    rw [List.mem_range'_1] at hy
    exact ⟨List.mem_range.mp hx, hy.1, hy.2⟩
  · rintro ⟨h1, h2, h3⟩
    exact ⟨k.1, List.mem_range.mpr h1,
      List.mem_map.mpr ⟨k.2, List.mem_range'_1.mpr ⟨h2, h3⟩, rfl⟩⟩

/-- The log of a worker is the list of the cells of its rows. -/
theorem threadfnLog_eq (image result : List PPMPixel) (w h start size : Nat)
    (hwm : w ≤ INT_MAX) (hhm : h ≤ INT_MAX) (hrange : start + size ≤ h) :
    threadfnLog { image := image, result := result, w := w, h := h,
                  start := start, size := size } =
      (threadfn { image := image, result := result, w := w, h := h,
                  start := start, size := size }).map (fun r => (r, rowCells w start size)) := by
  unfold threadfnLog threadfn
  rw [foldlM_nested, foldlM_nested]
  have hlog := foldlM_log (fun k : Nat × Nat => k.2 * w + k.1)
    (fun c k => pixelStep { image := image, result := result, w := w, h := h,
                            start := start, size := size } k.1 c k.2)
    (fun st k => pixelStepLog { image := image, result := result, w := w, h := h,
                                start := start, size := size } k.1 st k.2)
    ((List.range w).flatMap (fun x => (List.range' start size).map (fun y => (x, y))))
    result []
    (by
      intro k hk st
      obtain ⟨h1, h2, h3⟩ := (mem_pairs w start size k).mp hk
      simp only [pixelStepLog, pixelStep, resultIndex_eq w h k.1 k.2 hwm hhm h1 (by omega)]
      cases pixelValue image w h k.1 k.2 with
      | none => rfl
      | some px =>
        simp only [Option.bind_eq_bind, Option.some_bind]
        cases store st.1 (k.2 * w + k.1) px <;> rfl)
  rw [hlog]
  rfl

/-- The cells of a range of rows are listed once each. -/
theorem rowCells_nodup (w start size : Nat) : (rowCells w start size).Nodup := by
  unfold rowCells
  apply List.Nodup.map_on
  · intro a ha b hb he
    obtain ⟨a1, _, _⟩ := (mem_pairs w start size a).mp ha
    obtain ⟨b1, _, _⟩ := (mem_pairs w start size b).mp hb
    obtain ⟨e1, e2⟩ := cell_inj w b.1 b.2 a.1 a.2 b1 a1 he
    exact Prod.ext e1 e2
  · exact List.Nodup.product (List.nodup_range w) (List.nodup_range' start size)

theorem mem_rowCells (w start size i : Nat) :
    i ∈ rowCells w start size ↔
      ∃ x y, x < w ∧ start ≤ y ∧ y < start + size ∧ i = y * w + x := by
  unfold rowCells
  rw [List.mem_map]
  constructor
  · rintro ⟨k, hk, rfl⟩
    obtain ⟨h1, h2, h3⟩ := (mem_pairs w start size k).mp hk
    exact ⟨k.1, k.2, h1, h2, h3, rfl⟩
  · rintro ⟨x, y, h1, h2, h3, rfl⟩
    exact ⟨(x, y), (mem_pairs w start size (x, y)).mpr ⟨h1, h2, h3⟩, rfl⟩

/-- A cell is in the log of a worker once when its row is in the range of the
worker, and not at all otherwise. -/
theorem rowCells_count (w start size x y : Nat) (hx : x < w) :
    (rowCells w start size).count (y * w + x) =
      if start ≤ y ∧ y < start + size then 1 else 0 := by
  by_cases hin : start ≤ y ∧ y < start + size
  · rw [if_pos hin]
    exact List.count_eq_one_of_mem (rowCells_nodup w start size)
      ((mem_rowCells w start size _).mpr ⟨x, y, hx, hin.1, hin.2, rfl⟩)
  · rw [if_neg hin]
    apply List.count_eq_zero_of_not_mem
    intro hm
    obtain ⟨x', y', h1, h2, h3, he⟩ := (mem_rowCells w start size _).mp hm
    obtain ⟨_, e2⟩ := cell_inj w x' y' x y h1 hx he
    exact hin ⟨by omega, by omega⟩

/-- The filter pass with logs is the filter pass, beside the lists of the cells
of the ranges of the workers. -/
theorem apply_filtersLog_eq (N : Nat) (image mem : List PPMPixel) (w h : Nat)
    (hwm : w ≤ INT_MAX) (hhm : h ≤ INT_MAX) :
    apply_filtersLog N image w h mem =
      (apply_filters N image w h mem).map (fun r =>
        (r, (List.range N).map (fun i => rowCells w (startOf N h i) (sizeOf N h i)))) := by
  unfold apply_filtersLog apply_filters
  by_cases hN : N = 0
  · rw [if_pos hN, if_pos hN]; rfl
  · rw [if_neg hN, if_neg hN]
    have hlog := foldlM_log (fun i => rowCells w (startOf N h i) (sizeOf N h i))
      (fun result i => threadfn (paramsOf N image result w h i))
      (fun (st : List PPMPixel × List (List Nat)) i => do
        let r ← threadfnLog (paramsOf N image st.1 w h i)
        some (r.1, st.2 ++ [r.2]))
      (List.range N) mem []
      (by
        intro i hi st
        simp only [paramsOf]
        rw [threadfnLog_eq image st.1 w h (startOf N h i) (sizeOf N h i) hwm hhm
          (range_le N h i hhm (List.mem_range.mp hi))]
        cases threadfn { image := image, result := st.1, w := w, h := h,
                         start := startOf N h i, size := sizeOf N h i } <;> rfl)
    rw [hlog]
    rfl

/-- A sum of zeros and a single one is one. -/
theorem sum_indicator (f : Nat → Nat) (i0 : Nat) :
    ∀ n, (∀ i, i < n → f i = if i = i0 then 1 else 0) →
      ((List.range n).map f).sum = if i0 < n then 1 else 0 := by
  intro n
  induction n with
  | zero => intro _; simp
  | succ n ih =>
    intro hf
    rw [List.range_succ, List.map_append, List.sum_append, ih (fun i hi => hf i (by omega)),
      List.map_singleton, List.sum_singleton, hf n (by omega)]
    by_cases h1 : i0 < n
    · rw [if_pos h1, if_neg (by omega), if_pos (by omega)]
    · by_cases h2 : n = i0
      · rw [if_neg h1, if_pos h2, if_pos (by omega)]
      · rw [if_neg h1, if_neg h2, if_neg (by omega)]

/-- C16: for an image with `w >= 1` and `h >= 1` (dimensions within `int`) and a
worker count `N >= 1`, the filter pass succeeds and, `logs` being the list of
the stores of each worker: a worker stores only in cells of its own rows; for
every cell `(x, y)` with `x < w` and `y < h` exactly one worker `i` has
`start_i <= y < start_i + size_i`, that worker stores in the cell once, the
others never, and in all the cell is stored once, so the result is fully
populated. -/
theorem each_cell_written_once (N : Nat) (image mem : List PPMPixel) (w h : Nat)
    (hN : 1 ≤ N) (hw : 1 ≤ w) (hwm : w ≤ INT_MAX) (hh : 1 ≤ h) (hhm : h ≤ INT_MAX)
    (hlen : image.length = w * h) (hmem : mem.length = w * h) :
    ∃ res logs, apply_filtersLog N image w h mem = some (res, logs) ∧
      apply_filters N image w h mem = some res ∧
      logs.length = N ∧
      (∀ i, i < N → ∀ idx ∈ logs.getD i [], ∃ x y, x < w ∧
        (paramsOf N image mem w h i).start ≤ y ∧
        y < (paramsOf N image mem w h i).start + (paramsOf N image mem w h i).size ∧
        idx = y * w + x) ∧
      (∀ x y, x < w → y < h →
        (∃! i, i < N ∧ (paramsOf N image mem w h i).start ≤ y ∧
          y < (paramsOf N image mem w h i).start + (paramsOf N image mem w h i).size) ∧
        (∀ i, i < N → (paramsOf N image mem w h i).start ≤ y →
          y < (paramsOf N image mem w h i).start + (paramsOf N image mem w h i).size →
          (logs.getD i []).count (y * w + x) = 1) ∧
        (∀ i, i < N → ¬ ((paramsOf N image mem w h i).start ≤ y ∧
          y < (paramsOf N image mem w h i).start + (paramsOf N image mem w h i).size) →
          (logs.getD i []).count (y * w + x) = 0) ∧
        logs.flatten.count (y * w + x) = 1) := by
  obtain ⟨res, hres, _, _⟩ := apply_filters_cells N image mem w h hN hw hwm hh hhm hlen hmem
  have hget : ∀ i, i < N →
      ((List.range N).map (fun i => rowCells w (startOf N h i) (sizeOf N h i))).getD i [] =
        rowCells w (startOf N h i) (sizeOf N h i) := by
    intro i hi
    rw [List.getD_eq_getElem?_getD, List.getElem?_map, List.getElem?_range hi]
    rfl
  refine ⟨res, (List.range N).map (fun i => rowCells w (startOf N h i) (sizeOf N h i)),
    ?_, hres, by simp, ?_, ?_⟩
  · rw [apply_filtersLog_eq N image mem w h hwm hhm, hres]
    rfl
  · intro i hi idx hidx
    rw [hget i hi] at hidx
    simp only [paramsOf]
    exact (mem_rowCells w _ _ idx).mp hidx
  · intro x y hx hy
    simp only [paramsOf]
    obtain ⟨i0, hi0, h0, h1⟩ := row_covered N h y hN hhm hy
    refine ⟨⟨i0, ⟨hi0, h0, h1⟩, ?_⟩, ?_, ?_, ?_⟩
    · rintro j ⟨hj, hj0, hj1⟩
      exact row_unique N h y j i0 hhm hj hi0 hj0 hj1 h0 h1
    · intro i hi hj0 hj1
      rw [hget i hi, rowCells_count w _ _ x y hx, if_pos ⟨hj0, hj1⟩]
    · intro i hi hout
      rw [hget i hi, rowCells_count w _ _ x y hx, if_neg hout]
    · rw [List.count_flatten, List.map_map,
        sum_indicator _ i0 N (fun i hi => by
          show (rowCells w (startOf N h i) (sizeOf N h i)).count (y * w + x) = _
          rw [rowCells_count w _ _ x y hx]
          by_cases he : i = i0
          · rw [if_pos he, he, if_pos ⟨h0, h1⟩]
          · rw [if_neg he, if_neg]
            rintro ⟨hj0, hj1⟩
            exact he (row_unique N h y i i0 hhm hi hi0 hj0 hj1 h0 h1)),
        if_pos hi0]

/-- Witness of C16: the 3 x 2 sample image with two workers. -/
theorem each_cell_written_once_witness :
    ∃ res logs, apply_filtersLog 2 sample3x2 3 2 junk6 = some (res, logs) ∧
      apply_filters 2 sample3x2 3 2 junk6 = some res ∧
      logs.length = 2 ∧
      (∀ i, i < 2 → ∀ idx ∈ logs.getD i [], ∃ x y, x < 3 ∧
        (paramsOf 2 sample3x2 junk6 3 2 i).start ≤ y ∧
        y < (paramsOf 2 sample3x2 junk6 3 2 i).start + (paramsOf 2 sample3x2 junk6 3 2 i).size ∧
        idx = y * 3 + x) ∧
      (∀ x y, x < 3 → y < 2 →
        (∃! i, i < 2 ∧ (paramsOf 2 sample3x2 junk6 3 2 i).start ≤ y ∧
          y < (paramsOf 2 sample3x2 junk6 3 2 i).start + (paramsOf 2 sample3x2 junk6 3 2 i).size) ∧
        (∀ i, i < 2 → (paramsOf 2 sample3x2 junk6 3 2 i).start ≤ y →
          y < (paramsOf 2 sample3x2 junk6 3 2 i).start + (paramsOf 2 sample3x2 junk6 3 2 i).size →
          (logs.getD i []).count (y * 3 + x) = 1) ∧
        (∀ i, i < 2 → ¬ ((paramsOf 2 sample3x2 junk6 3 2 i).start ≤ y ∧
          y < (paramsOf 2 sample3x2 junk6 3 2 i).start + (paramsOf 2 sample3x2 junk6 3 2 i).size) →
          (logs.getD i []).count (y * 3 + x) = 0) ∧
        logs.flatten.count (y * 3 + x) = 1) :=
  each_cell_written_once 2 sample3x2 junk6 3 2 (by decide) (by decide) (by decide) (by decide)
    (by decide) (by decide) (by decide)

/-! ## The accumulators step by step -/

/-- A sample of an image of `unsigned char` channels has such channels. -/
theorem sourceAt_le (image : List PPMPixel) (w h x y fx fy : Nat)
    (hchan : ∀ p ∈ image, p.r ≤ 255 ∧ p.g ≤ 255 ∧ p.b ≤ 255) :
    (sourceAt image w h x y fx fy).r ≤ 255 ∧ (sourceAt image w h x y fx fy).g ≤ 255 ∧
      (sourceAt image w h x y fx fy).b ≤ 255 := by
  unfold sourceAt
  generalize ((((y : Int) - 1 + fy + h) % h * w + ((x : Int) - 1 + fx + w) % w).toNat) = i
  rw [List.getD_eq_getElem?_getD]
  by_cases hi : i < image.length
  · rw [List.getElem?_eq_getElem hi]
    exact hchan _ (List.getElem_mem hi)
  · rw [List.getElem?_eq_none (by omega)]
    simp

theorem weight_cases (fx fy : Nat) (hfx : fx < 3) (hfy : fy < 3) :
    weight fx fy = if (fx, fy) = (1, 1) then 8 else -1 := by
  interval_cases fx <;> interval_cases fy <;> decide

theorem mem_kernelOffsets (f : Nat × Nat) (hf : f ∈ kernelOffsets) : f.1 < 3 ∧ f.2 < 3 := by
  have h : ∀ g ∈ kernelOffsets, g.1 < 3 ∧ g.2 < 3 := by decide
  exact h f hf

/-- The kernel loops are the nine accumulation steps. -/
theorem kernelLoop_eq_accAfter (image : List PPMPixel) (w h x y : Nat) :
    kernelLoop image w h x y = accAfter image w h x y 9 := by
  unfold kernelLoop accAfter
  rw [foldlM_nested]
  rfl

/-- A run of accumulation steps lowers each accumulator by at most 255 a step
and raises it by at most `8 * 255` for the centre of the kernel. -/
theorem accumulate_bounds (image : List PPMPixel) (w h x y : Nat)
    (hw : 1 ≤ w) (hwm : w ≤ INT_MAX) (hh : 1 ≤ h) (hhm : h ≤ INT_MAX)
    (hlen : image.length = w * h) (hx : x < w) (hy : y < h)
    (hchan : ∀ p ∈ image, p.r ≤ 255 ∧ p.g ≤ 255 ∧ p.b ≤ 255) :
    ∀ (l : List (Nat × Nat)) (acc : Acc), (∀ f ∈ l, f.1 < 3 ∧ f.2 < 3) →
      ∃ acc1, l.foldlM (fun acc f => accumulate image w h x y f.1 acc f.2) acc = some acc1 ∧
        acc.red - 255 * l.length ≤ acc1.red ∧ acc1.red ≤ acc.red + 2040 * l.count (1, 1) ∧
        acc.green - 255 * l.length ≤ acc1.green ∧
        acc1.green ≤ acc.green + 2040 * l.count (1, 1) ∧
        acc.blue - 255 * l.length ≤ acc1.blue ∧
        acc1.blue ≤ acc.blue + 2040 * l.count (1, 1) := by
  intro l
  induction l with
  | nil => intro acc _; exact ⟨acc, rfl, by simp⟩
  | cons f t ih =>
    intro acc hl
    obtain ⟨hfx, hfy⟩ := hl f (List.mem_cons_self f t)
    obtain ⟨pr, pg, pb⟩ := sourceAt_le image w h x y f.1 f.2 hchan
    obtain ⟨acc1, hfold, b1, b2, b3, b4, b5, b6⟩ :=
      ih { red := acc.red + (sourceAt image w h x y f.1 f.2).r * weight f.1 f.2
           green := acc.green + (sourceAt image w h x y f.1 f.2).g * weight f.1 f.2
           blue := acc.blue + (sourceAt image w h x y f.1 f.2).b * weight f.1 f.2 }
        (fun g hg => hl g (List.mem_cons_of_mem f hg))
    refine ⟨acc1, ?_, ?_⟩
    · rw [List.foldlM_cons]
      simp only [accumulate, sample_eq image w h x y f.1 f.2 hw hwm hh hhm hlen hx hy hfx hfy,
        Option.bind_eq_bind, Option.some_bind]
      exact hfold
    · rw [weight_cases f.1 f.2 hfx hfy] at b1 b2 b3 b4 b5 b6
      rw [List.length_cons, List.count_cons]
      simp only at b1 b2 b3 b4 b5 b6
      by_cases hc : f = (1, 1)
      · have hc2 : (f.1, f.2) = (1, 1) := hc
        rw [if_pos hc2] at b1 b2 b3 b4 b5 b6
        simp only [hc, beq_self_eq_true, if_true]
        push_cast
        refine ⟨?_, ?_, ?_, ?_, ?_, ?_⟩ <;> omega
      · have hc2 : ¬ (f.1, f.2) = (1, 1) := hc
        rw [if_neg hc2] at b1 b2 b3 b4 b5 b6
        have hb : (f == (1, 1)) = false := by simpa using hc
        simp only [hb]
        push_cast
        refine ⟨?_, ?_, ?_, ?_, ?_, ?_⟩ <;> omega

/-- C17: for a source image of `unsigned char` channels (dimensions within
`int`) and every target pixel, each of the accumulators `red`, `green`, `blue`
of `threadfn` has absolute value at most 4080 after each of the accumulation
steps (`k` steps, for every `k`; the loops are the 9 steps), so it fits a signed
16-bit integer and the `int` accumulators do not overflow. -/
theorem accumulators_bounded (image : List PPMPixel) (w h x y : Nat)
    (hw : 1 ≤ w) (hwm : w ≤ INT_MAX) (hh : 1 ≤ h) (hhm : h ≤ INT_MAX)
    (hlen : image.length = w * h) (hx : x < w) (hy : y < h)
    (hchan : ∀ p ∈ image, p.r ≤ 255 ∧ p.g ≤ 255 ∧ p.b ≤ 255) :
    kernelLoop image w h x y = accAfter image w h x y 9 ∧
    ∀ k, ∃ acc, accAfter image w h x y k = some acc ∧
      |acc.red| ≤ 4080 ∧ |acc.green| ≤ 4080 ∧ |acc.blue| ≤ 4080 ∧
      (-32768 ≤ acc.red ∧ acc.red ≤ 32767) ∧ (-32768 ≤ acc.green ∧ acc.green ≤ 32767) ∧
      (-32768 ≤ acc.blue ∧ acc.blue ≤ 32767) ∧
      toCInt acc.red = acc.red ∧ toCInt acc.green = acc.green ∧ toCInt acc.blue = acc.blue := by
  refine ⟨kernelLoop_eq_accAfter image w h x y, ?_⟩
  intro k
  have hsub : (kernelOffsets.take k).Sublist kernelOffsets := List.take_sublist k kernelOffsets
  have hlen9 : (kernelOffsets.take k).length ≤ 9 := by
    have h1 := hsub.length_le
    have h2 : kernelOffsets.length = 9 := by decide
    omega
  have hcount : (kernelOffsets.take k).count (1, 1) ≤ 1 := by
    have h1 := hsub.count_le (1, 1)
    have h2 : kernelOffsets.count (1, 1) = 1 := by decide
    omega
  obtain ⟨acc, hfold, b1, b2, b3, b4, b5, b6⟩ :=
    accumulate_bounds image w h x y hw hwm hh hhm hlen hx hy hchan (kernelOffsets.take k)
      { red := 0, green := 0, blue := 0 }
      (fun f hf => mem_kernelOffsets f (hsub.subset hf))
  simp only at b1 b2 b3 b4 b5 b6
  have c1 : ((kernelOffsets.take k).length : Int) ≤ 9 := by exact_mod_cast hlen9
  have c2 : ((kernelOffsets.take k).count (1, 1) : Int) ≤ 1 := by exact_mod_cast hcount
  have c3 : (0 : Int) ≤ ((kernelOffsets.take k).length : Int) := by positivity
  have c4 : (0 : Int) ≤ ((kernelOffsets.take k).count (1, 1) : Int) := by positivity
  refine ⟨acc, hfold, abs_le.mpr ⟨by omega, by omega⟩, abs_le.mpr ⟨by omega, by omega⟩,
    abs_le.mpr ⟨by omega, by omega⟩, ⟨by omega, by omega⟩, ⟨by omega, by omega⟩,
    ⟨by omega, by omega⟩, toCInt_eq _ (by omega) (by omega), toCInt_eq _ (by omega) (by omega),
    toCInt_eq _ (by omega) (by omega)⟩

/-- Witness of C17: the 3 x 2 sample image at the target pixel `(2, 1)`. -/
theorem accumulators_bounded_witness :
    kernelLoop sample3x2 3 2 2 1 = accAfter sample3x2 3 2 2 1 9 ∧
    ∀ k, ∃ acc, accAfter sample3x2 3 2 2 1 k = some acc ∧
      |acc.red| ≤ 4080 ∧ |acc.green| ≤ 4080 ∧ |acc.blue| ≤ 4080 ∧
      (-32768 ≤ acc.red ∧ acc.red ≤ 32767) ∧ (-32768 ≤ acc.green ∧ acc.green ≤ 32767) ∧
      (-32768 ≤ acc.blue ∧ acc.blue ≤ 32767) ∧
      toCInt acc.red = acc.red ∧ toCInt acc.green = acc.green ∧ toCInt acc.blue = acc.blue :=
  accumulators_bounded sample3x2 3 2 2 1 (by decide) (by decide) (by decide) (by decide)
    (by decide) (by decide) (by decide) (by decide)

/-! ## The samples in a 2 x 2 image -/

/-- The read of the kernel loops is the read at `sampleIndex`. -/
theorem sample_eq_sampleIndex (image : List PPMPixel) (w h x y filterx filtery : Nat) :
    sample image w h x y filterx filtery =
      (sampleIndex w h x y filterx filtery).bind (fun i => image[i]?) := by
  unfold sample sampleIndex
  cases imagex w x filterx with
  | none => rfl
  | some ix =>
    cases imagey h y filtery with
    | none => rfl
    | some iy => rfl

/-- Counterexample to C18: in a 2 x 2 image the eight non-centre samples of the
target `(0, 0)` read the cell 3, the diagonal neighbour, four times and the cell
0 never; the four pixels are not sampled twice each. -/
theorem diagonal_sampled_four_times :
    (neighbourReads 2 2 0 0).count (some 3) = 4 ∧
    (neighbourReads 2 2 0 0).count (some 0) = 0 ∧
    ¬ (∀ x y, x < 2 → y < 2 → ∀ i, i < 4 → (neighbourReads 2 2 x y).count (some i) = 2) := by
  refine ⟨by decide, by decide, ?_⟩
  intro h
  have h3 := h 0 0 (by decide) (by decide) 3 (by decide)
  revert h3
  decide

/-- C18, amended: in a 2 x 2 image, for every target pixel `(x, y)`, the eight
non-centre kernel samples land on the three other pixels of the image: the
diagonal neighbour is read four times, the neighbour in the row twice and the
neighbour in the column twice; the target pixel itself is read by none of
them. -/
theorem neighbours_in_2x2 (x y : Nat) (hx : x < 2) (hy : y < 2) :
    (neighbourReads 2 2 x y).length = 8 ∧
    (neighbourReads 2 2 x y).count (some ((1 - y) * 2 + (1 - x))) = 4 ∧
    (neighbourReads 2 2 x y).count (some (y * 2 + (1 - x))) = 2 ∧
    (neighbourReads 2 2 x y).count (some ((1 - y) * 2 + x)) = 2 ∧
    (neighbourReads 2 2 x y).count (some (y * 2 + x)) = 0 := by
  interval_cases x <;> interval_cases y <;> decide

/-- Witness of the amended C18: the target pixel `(1, 0)`. -/
theorem neighbours_in_2x2_witness :
    (neighbourReads 2 2 1 0).length = 8 ∧
    (neighbourReads 2 2 1 0).count (some ((1 - 0) * 2 + (1 - 1))) = 4 ∧
    (neighbourReads 2 2 1 0).count (some (0 * 2 + (1 - 1))) = 2 ∧
    (neighbourReads 2 2 1 0).count (some ((1 - 0) * 2 + 1)) = 2 ∧
    (neighbourReads 2 2 1 0).count (some (0 * 2 + 1)) = 0 :=
  neighbours_in_2x2 1 0 (by decide) (by decide)

/-! ## Bounds of the indices -/

/-- The index of a read at a column below `w` and a row below `h` is inside the
image. -/
theorem imageIndex_lt (w h : Nat) (ix iy : Int) (hwm : w ≤ INT_MAX) (hhm : h ≤ INT_MAX)
    (a1 : 0 ≤ ix) (a2 : ix < w) (b1 : 0 ≤ iy) (b2 : iy < h) : imageIndex w ix iy < w * h := by
  lift ix to ℕ using a1
  lift iy to ℕ using b1
  have hc := cell_lt w h ix iy (by exact_mod_cast a2) (by exact_mod_cast b2)
  have hd := dims_lt w h hwm hhm
  have he : ((iy : Int) * w + ix) = ((iy * w + ix : Nat) : Int) := by push_cast; ring
  unfold imageIndex
  rw [he]
  generalize iy * w + ix = m at hc ⊢
  rw [toULong_eq _ (by positivity) (by omega)]
  exact_mod_cast hc

/-- C19, amended: for an image with `1 <= w <= INT_MAX` and `1 <= h <= INT_MAX`
(the range of the `int` coordinates; the two buffers of `w * h` cells) and a worker range with `start + size <= h`, every
index `threadfn` uses is in bounds: `threadfn` returns a buffer and takes no
failure branch; for each target `(x, y)` of the worker the write index is
`y * w + x < w * h`, and at each kernel offset the two modulo operations succeed
(no division by zero) with `0 <= imagex < w` and `0 <= imagey < h`, the read
index is below `w * h` and the read succeeds; and the ranges `apply_filters`
gives its workers satisfy `start + size <= h`. -/
theorem indices_in_bounds (image result : List PPMPixel) (w h start size : Nat)
    (hw : 1 ≤ w) (hwm : w ≤ INT_MAX) (hh : 1 ≤ h) (hhm : h ≤ INT_MAX)
    (hlen : image.length = w * h) (hres : result.length = w * h)
    (hrange : start + size ≤ h) :
    (∃ res, threadfn { image := image, result := result, w := w, h := h,
                       start := start, size := size } = some res ∧ res.length = w * h) ∧
    (∀ N i, i < N → (paramsOf N image result w h i).start +
      (paramsOf N image result w h i).size ≤ h) ∧
    ∀ x y, x < w → start ≤ y → y < start + size →
      resultIndex w x y = y * w + x ∧ resultIndex w x y < w * h ∧
      ∀ fx fy, fx < 3 → fy < 3 →
        ∃ ix iy, imagex w x fx = some ix ∧ imagey h y fy = some iy ∧
          0 ≤ ix ∧ ix < w ∧ 0 ≤ iy ∧ iy < h ∧
          imageIndex w ix iy < w * h ∧
          (sample image w h x y fx fy).isSome = true := by
  obtain ⟨res, hthr, hl, _⟩ :=
    threadfn_cells image result w h start size hw hwm hh hhm hlen hres hrange
  refine ⟨⟨res, hthr, hl⟩, ?_, ?_⟩
  · intro N i hi
    simp only [paramsOf]
    exact range_le N h i hhm hi
  intro x y hx hy0 hy1
  have hy : y < h := by omega
  have hri := resultIndex_eq w h x y hwm hhm hx hy
  refine ⟨hri, by rw [hri]; exact cell_lt w h x y hx hy, ?_⟩
  intro fx fy hfx hfy
  have hwp : (0 : Int) < w := by omega
  have hhp : (0 : Int) < h := by omega
  have a1 := Int.emod_nonneg ((x : Int) - 1 + fx + w) (ne_of_gt hwp)
  have a2 := Int.emod_lt_of_pos ((x : Int) - 1 + fx + w) hwp
  have b1 := Int.emod_nonneg ((y : Int) - 1 + fy + h) (ne_of_gt hhp)
  have b2 := Int.emod_lt_of_pos ((y : Int) - 1 + fy + h) hhp
  refine ⟨_, _, imagex_eq w x fx hw hwm hx hfx, imagey_eq h y fy hh hhm hy hfy, a1, a2, b1, b2,
    imageIndex_lt w h _ _ hwm hhm a1 a2 b1 b2, ?_⟩
  rw [sample_eq image w h x y fx fy hw hwm hh hhm hlen hx hy hfx hfy]
  rfl

/-- Witness of the amended C19: the second worker of two on the 3 x 2 sample image. -/
theorem indices_in_bounds_witness :
    (∃ res, threadfn { image := sample3x2, result := junk6, w := 3, h := 2,
                       start := 1, size := 1 } = some res ∧ res.length = 3 * 2) ∧
    (∀ N i, i < N → (paramsOf N sample3x2 junk6 3 2 i).start +
      (paramsOf N sample3x2 junk6 3 2 i).size ≤ 2) ∧
    ∀ x y, x < 3 → 1 ≤ y → y < 1 + 1 →
      resultIndex 3 x y = y * 3 + x ∧ resultIndex 3 x y < 3 * 2 ∧
      ∀ fx fy, fx < 3 → fy < 3 →
        ∃ ix iy, imagex 3 x fx = some ix ∧ imagey 2 y fy = some iy ∧
          0 ≤ ix ∧ ix < (3 : Nat) ∧ 0 ≤ iy ∧ iy < (2 : Nat) ∧
          imageIndex 3 ix iy < 3 * 2 ∧
          (sample sample3x2 3 2 x y fx fy).isSome = true :=
  indices_in_bounds sample3x2 junk6 3 2 1 1 (by decide) (by decide) (by decide) (by decide)
    (by decide) (by decide) (by decide)

/-! ## Cyclic shifts -/

theorem wrapCoord_cast (n : Nat) (z : Int) (hn : 1 ≤ n) : ((wrapCoord n z : Nat) : Int) = z % n := by
  unfold wrapCoord
  exact Int.toNat_of_nonneg (Int.emod_nonneg z (by omega))

theorem wrapCoord_lt (n : Nat) (z : Int) (hn : 1 ≤ n) : wrapCoord n z < n := by
  have h1 := wrapCoord_cast n z hn
  have h2 := Int.emod_lt_of_pos z (by omega : (0 : Int) < n)
  omega

/-- Shifting a wrapped coordinate: only the sum of the shifts counts. -/
theorem wrapCoord_add (n : Nat) (a b : Int) (hn : 1 ≤ n) :
    wrapCoord n ((wrapCoord n a : Nat) + b) = wrapCoord n (a + b) := by
  unfold wrapCoord
  rw [Int.toNat_of_nonneg (Int.emod_nonneg a (by omega)), Int.emod_add_emod]

/-- The sample of the specification, with coordinates. -/
theorem sourceAt_wrap (image : List PPMPixel) (w h x y fx fy : Nat) (hw : 1 ≤ w) (hh : 1 ≤ h) :
    sourceAt image w h x y fx fy =
      image.getD (wrapCoord h ((y : Int) - 1 + fy + h) * w + wrapCoord w ((x : Int) - 1 + fx + w))
        { r := 0, g := 0, b := 0 } := by
  unfold sourceAt
  congr 1
  have h1 := wrapCoord_cast w ((x : Int) - 1 + fx + w) hw
  have h2 := wrapCoord_cast h ((y : Int) - 1 + fy + h) hh
  rw [← h1, ← h2]
  have he : ((wrapCoord h ((y : Int) - 1 + fy + h) : Nat) : Int) * w +
      ((wrapCoord w ((x : Int) - 1 + fx + w) : Nat) : Int) =
      ((wrapCoord h ((y : Int) - 1 + fy + h) * w + wrapCoord w ((x : Int) - 1 + fx + w) : Nat) : Int) := by
    push_cast; ring
  rw [he, Int.toNat_natCast]

theorem shiftImage_length (image : List PPMPixel) (w h : Nat) (dx dy : Int) :
    (shiftImage image w h dx dy).length = w * h := by
  unfold shiftImage
  rw [List.length_map, List.length_range]

/-- The cell `(x, y)` of the shifted image. -/
theorem shiftImage_cell (image : List PPMPixel) (w h : Nat) (dx dy : Int) (x y : Nat)
    (hx : x < w) (hy : y < h) :
    (shiftImage image w h dx dy)[y * w + x]? =
      some (image.getD (wrapCoord h ((y : Int) + dy) * w + wrapCoord w ((x : Int) + dx))
        { r := 0, g := 0, b := 0 }) := by
  have hw : 0 < w := by omega
  have h1 : (y * w + x) / w = y := by
    rw [Nat.add_comm, Nat.add_mul_div_right _ _ hw, Nat.div_eq_of_lt hx]; simp
  have h2 : (y * w + x) % w = x := by
    rw [Nat.add_comm, Nat.add_mul_mod_self_right, Nat.mod_eq_of_lt hx]
  unfold shiftImage
  rw [List.getElem?_map, List.getElem?_range (cell_lt w h x y hx hy)]
  simp only [Option.map_some', h1, h2]

/-- A sample of the shifted image is the sample of the image at the shifted
target. -/
theorem sourceAt_shift (image : List PPMPixel) (w h : Nat) (dx dy : Int) (x y fx fy : Nat)
    (hw : 1 ≤ w) (hh : 1 ≤ h) :
    sourceAt (shiftImage image w h dx dy) w h x y fx fy =
      sourceAt image w h (wrapCoord w ((x : Int) + dx)) (wrapCoord h ((y : Int) + dy)) fx fy := by
  rw [sourceAt_wrap _ w h x y fx fy hw hh, sourceAt_wrap _ w h _ _ fx fy hw hh,
    List.getD_eq_getElem?_getD,
    shiftImage_cell image w h dx dy _ _ (wrapCoord_lt w _ hw) (wrapCoord_lt h _ hh),
    Option.getD_some, wrapCoord_add w _ dx hw, wrapCoord_add h _ dy hh]
  have e1 : ((wrapCoord w ((x : Int) + dx) : Nat) : Int) - 1 + fx + w =
      ((wrapCoord w ((x : Int) + dx) : Nat) : Int) + (-1 + fx + w) := by ring
  have e2 : ((wrapCoord h ((y : Int) + dy) : Nat) : Int) - 1 + fy + h =
      ((wrapCoord h ((y : Int) + dy) : Nat) : Int) + (-1 + fy + h) := by ring
  rw [e1, e2, wrapCoord_add w _ _ hw, wrapCoord_add h _ _ hh]
  have e3 : (x : Int) - 1 + fx + w + dx = (x : Int) + dx + (-1 + fx + w) := by ring
  have e4 : (y : Int) - 1 + fy + h + dy = (y : Int) + dy + (-1 + fy + h) := by ring
  rw [e3, e4]

/-- The filtered pixel of the shifted image is the filtered pixel of the image
at the shifted target. -/
theorem filteredPixel_shift (image : List PPMPixel) (w h : Nat) (dx dy : Int) (x y : Nat)
    (hw : 1 ≤ w) (hh : 1 ≤ h) :
    filteredPixel (shiftImage image w h dx dy) w h x y =
      filteredPixel image w h (wrapCoord w ((x : Int) + dx)) (wrapCoord h ((y : Int) + dy)) := by
  unfold filteredPixel kernelSum
  simp only [sourceAt_shift image w h dx dy x y _ _ hw hh]

/-- C20: the filter commutes with cyclic shifts. For an image with `w >= 1` and
`h >= 1` (dimensions within `int`), every shift `(dx, dy)` and every worker
count, filtering the shifted image gives the same buffer as shifting the
filtered image: `filter(shift(I)) = shift(filter(I))`. -/
theorem filter_commutes_with_shift (N : Nat) (image mem mem1 : List PPMPixel) (w h : Nat)
    (dx dy : Int) (hN : 1 ≤ N) (hw : 1 ≤ w) (hwm : w ≤ INT_MAX) (hh : 1 ≤ h)
    (hhm : h ≤ INT_MAX) (hlen : image.length = w * h) (hmem : mem.length = w * h)
    (hmem1 : mem1.length = w * h) :
    ∃ a b, apply_filters N (shiftImage image w h dx dy) w h mem = some a ∧
      apply_filters N image w h mem1 = some b ∧
      a = shiftImage b w h dx dy := by
  obtain ⟨a, ha, hla, hca⟩ := apply_filters_cells N (shiftImage image w h dx dy) mem w h
    hN hw hwm hh hhm (shiftImage_length image w h dx dy) hmem
  obtain ⟨b, hb, hlb, hcb⟩ := apply_filters_cells N image mem1 w h hN hw hwm hh hhm hlen hmem1
  refine ⟨a, b, ha, hb, ?_⟩
  apply buffer_ext a _ w h hw hla (shiftImage_length b w h dx dy)
  intro x y hx hy
  rw [hca x y hx hy, shiftImage_cell b w h dx dy x y hx hy, List.getD_eq_getElem?_getD,
    hcb _ _ (wrapCoord_lt w _ hw) (wrapCoord_lt h _ hh), Option.getD_some,
    filteredPixel_shift image w h dx dy x y hw hh]

/-- Witness of C20: the 3 x 2 sample image shifted by `(1, -1)`, two workers. -/
theorem filter_commutes_with_shift_witness :
    ∃ a b, apply_filters 2 (shiftImage sample3x2 3 2 1 (-1)) 3 2 junk6 = some a ∧
      apply_filters 2 sample3x2 3 2 junk6 = some b ∧
      a = shiftImage b 3 2 1 (-1) :=
  filter_commutes_with_shift 2 sample3x2 junk6 junk6 3 2 1 (-1) (by decide) (by decide)
    (by decide) (by decide) (by decide) (by decide) (by decide) (by decide)

/-! ## Dimensions beyond the range of `int` -/

/-- Counterexample to C2: for the height `2 ^ 32 + 2` and two workers, `work` is
narrowed to `-2147483647`; worker 0 gets `18446744071562067969` rows, worker 1
starts there with `6442450945` rows, and the sizes do not add up to the
height. -/
theorem tall_partition_does_not_tile :
    work 2 4294967298 = -2147483647 ∧
    (paramsOf 2 [] [] 1 4294967298 0).start = 0 ∧
    (paramsOf 2 [] [] 1 4294967298 0).size = 18446744071562067969 ∧
    (paramsOf 2 [] [] 1 4294967298 1).start = 18446744071562067969 ∧
    (paramsOf 2 [] [] 1 4294967298 1).size = 6442450945 ∧
    ((List.range 2).map (fun i => (paramsOf 2 [] [] 1 4294967298 i).size)).sum ≠ 4294967298 := by
  decide

/-- Counterexample to C3: for the height `2 ^ 32 + 2` and two workers, worker 0
does not get `height / N = 2147483649` rows, and the last worker does not get
`height - base * (N - 1)` rows; for the height `2 ^ 33 + 6` worker 0 gets 3
rows where `height / N` is `4294967299`. -/
theorem tall_partition_sizes_differ :
    4294967298 / 2 = 2147483649 ∧
    (paramsOf 2 [] [] 1 4294967298 0).size ≠ 4294967298 / 2 ∧
    (paramsOf 2 [] [] 1 4294967298 (2 - 1)).size ≠ 4294967298 - 4294967298 / 2 * (2 - 1) ∧
    (paramsOf 2 [] [] 1 8589934598 0).size = 3 ∧
    (paramsOf 2 [] [] 1 8589934598 0).size ≠ 8589934598 / 2 := by
  decide

/-- Counterexample to C6: for the height `2 ^ 32 + 1` the row sampled for the
target `(0, 0)` at the kernel offset `(0, 0)` is row 0, not `h - 1`: the wrapped
value `h - 1 = 2 ^ 32` is narrowed to `int`. For the width `2 ^ 31 + 1` the
column is `-2147483648`, not `w - 1`. -/
theorem origin_sample_beyond_int :
    imagey 4294967297 0 0 = some 0 ∧
    imagey 4294967297 0 0 ≠ some (((4294967297 : Nat) : Int) - 1) ∧
    imagex 2147483649 0 0 = some (-2147483648) ∧
    imagex 2147483649 0 0 ≠ some (((2147483649 : Nat) : Int) - 1) := by
  decide

/-- A worker whose first pixel cannot be computed returns no buffer. -/
theorem threadfn_first_none (p : parameter) (n m : Nat) (hw : p.w = n + 1)
    (hs : p.size = m + 1) (hfirst : pixelStep p 0 p.result p.start = none) :
    threadfn p = none := by
  unfold threadfn
  rw [hw, hs, List.range_succ_eq_map, List.foldlM_cons, List.range'_succ, List.foldlM_cons,
    hfirst]
  rfl

theorem wideImage_length : wideImage.length = 2147483649 := by
  unfold wideImage
  rw [List.length_map, List.length_range]

/-- In a buffer of `2 ^ 31 + 1` cells taken as an image of that width and of
height 1, the first read of the kernel loops at the target `(0, 0)` is outside
the buffer and the worker returns no buffer. -/
theorem wide_read_fails (image result : List PPMPixel) (hlen : image.length = 2147483649) :
    sample image 2147483649 1 0 0 0 0 = none ∧
    threadfn { image := image, result := result, w := 2147483649, h := 1,
               start := 0, size := 1 } = none := by
  have hidx : sampleIndex 2147483649 1 0 0 0 0 = some 18446744071562067968 := by decide
  have hsample : sample image 2147483649 1 0 0 0 0 = none := by
    rw [sample_eq_sampleIndex, hidx]
    exact List.getElem?_eq_none (by rw [hlen]; decide)
  refine ⟨hsample, ?_⟩
  apply threadfn_first_none _ 2147483648 0 rfl rfl
  have hk : kernelLoop image 2147483649 1 0 0 = none := by
    unfold kernelLoop
    have e1 : filterWidth = 3 := rfl
    have e2 : filterHeight = 3 := rfl
    rw [e1, e2, range3, List.foldlM_cons, List.foldlM_cons]
    simp only [accumulate, hsample]
    rfl
  simp only [pixelStep, pixelValue, hk]
  rfl

/-- Counterexample to C19: for an image of width `2 ^ 31 + 1` and height 1 (a
buffer of `w * h` cells) and the worker range `[0, 1)`, the column computed for
the target `(0, 0)` at the kernel offset `(0, 0)` is `-2147483648`, not in
`[0, w)`; the read index is `18446744071562067968`, not below `w * h`; the read
fails and `threadfn` takes the failure branch. -/
theorem wide_image_read_out_of_bounds :
    wideImage.length = 2147483649 * 1 ∧
    imagex 2147483649 0 0 = some (-2147483648) ∧
    sampleIndex 2147483649 1 0 0 0 0 = some 18446744071562067968 ∧
    ¬ (18446744071562067968 < 2147483649 * 1) ∧
    sample wideImage 2147483649 1 0 0 0 0 = none ∧
    threadfn { image := wideImage, result := wideImage, w := 2147483649, h := 1,
               start := 0, size := 1 } = none :=
  ⟨wideImage_length, by decide, by decide, by decide,
    (wide_read_fails wideImage wideImage wideImage_length).1,
    (wide_read_fails wideImage wideImage wideImage_length).2⟩

/-- The effect of one worker on the result buffer, given the pixel it computes
for each of its targets and the index it stores it at. -/
theorem threadfn_cells_of (image result : List PPMPixel) (w h start size : Nat)
    (v : Nat → Nat → PPMPixel)
    (hval : ∀ x y, x < w → start ≤ y → y < start + size →
      pixelValue image w h x y = some (v x y))
    (hidx : ∀ x y, x < w → start ≤ y → y < start + size → resultIndex w x y = y * w + x)
    (hres : result.length = w * h) (hrange : start + size ≤ h) :
    ∃ res, threadfn { image := image, result := result, w := w, h := h,
                      start := start, size := size } = some res ∧
      res.length = w * h ∧
      ∀ x y, x < w → y < h →
        res[y * w + x]? =
          if start ≤ y ∧ y < start + size then some (v x y) else result[y * w + x]? := by
  obtain ⟨res, hfold, hl, hcell⟩ := foldlM_store
    (fun k : Nat × Nat => k.2 * w + k.1) (fun k => v k.1 k.2)
    (fun c k => pixelStep { image := image, result := result, w := w, h := h,
                            start := start, size := size } k.1 c k.2)
    ((List.range w).flatMap (fun x => (List.range' start size).map (fun y => (x, y)))) result
    (by
      intro k hk b
      obtain ⟨h1, h2, h3⟩ := (mem_pairs w start size k).mp hk
      simp only [pixelStep, hval k.1 k.2 h1 h2 h3, hidx k.1 k.2 h1 h2 h3,
        Option.bind_eq_bind, Option.some_bind])
    (by
      intro k hk
      obtain ⟨h1, h2, h3⟩ := (mem_pairs w start size k).mp hk
      rw [hres]
      exact cell_lt w h k.1 k.2 h1 (by omega))
  refine ⟨res, ?_, by rw [hl, hres], ?_⟩
  · unfold threadfn
    rw [← hfold]
    exact foldlM_nested _ _ _ _
  · intro x y hx hy
    rcases hcell (y * w + x) with ⟨he, hne⟩ | ⟨k, hk, hi, hv⟩
    · have hout : ¬ (start ≤ y ∧ y < start + size) := by
        intro hin
        exact hne (x, y) ((mem_pairs w start size (x, y)).mpr ⟨hx, hin.1, hin.2⟩) rfl
      rw [if_neg hout, he]
    · obtain ⟨h1, h2, h3⟩ := (mem_pairs w start size k).mp hk
      obtain ⟨e1, e2⟩ := cell_inj w x y k.1 k.2 hx h1 hi
      rw [e1, e2] at hv
      rw [e2] at h2 h3
      rw [if_pos ⟨h2, h3⟩, hv]

theorem sourceAt_eq_sourceIndex (image : List PPMPixel) (w h x y fx fy : Nat) :
    sourceAt image w h x y fx fy =
      image.getD (sourceIndex w h x y fx fy) { r := 0, g := 0, b := 0 } := rfl

/-- In an image of width 3 and height `2 ^ 32 + 1` whose rows 0 and 1 are white,
every read of the kernel loops for a target of row 0 is a white pixel: the row
above row 0 is taken to be row 0 itself. -/
theorem tall_samples_white (image : List PPMPixel)
    (hwhite : ∀ i, i < 6 → image[i]? = some white) (x fx fy : Nat)
    (hx : x < 3) (hfx : fx < 3) (hfy : fy < 3) :
    sample image 3 4294967297 x 0 fx fy = some white := by
  have hsix : ∀ x, x < 3 → ∀ fx, fx < 3 → ∀ fy, fy < 3 →
      (sampleIndex 3 4294967297 x 0 fx fy).map (fun i => decide (i < 6)) = some true := by
    decide
  have h1 := hsix x hx fx hfx fy hfy
  rw [sample_eq_sampleIndex]
  cases hs : sampleIndex 3 4294967297 x 0 fx fy with
  | none => rw [hs] at h1; simp at h1
  | some i =>
    rw [hs] at h1
    simp only [Option.map_some', Option.some.injEq, decide_eq_true_eq] at h1
    exact hwhite i h1

/-- The pixel stored for such a target is black. -/
theorem tall_pixelValue (image : List PPMPixel)
    (hwhite : ∀ i, i < 6 → image[i]? = some white) (x : Nat) (hx : x < 3) :
    pixelValue image 3 4294967297 x 0 = some black := by
  have hs : ∀ fx fy, fx < 3 → fy < 3 → sample image 3 4294967297 x 0 fx fy = some white :=
    fun fx fy hfx hfy => tall_samples_white image hwhite x fx fy hx hfx hfy
  have hk : kernelLoop image 3 4294967297 x 0 = some { red := 0, green := 0, blue := 0 } := by
    unfold kernelLoop
    have e1 : filterWidth = 3 := rfl
    have e2 : filterHeight = 3 := rfl
    rw [e1, e2, range3]
    simp only [List.foldlM_cons, List.foldlM_nil, accumulate, hs 0 0 (by omega) (by omega),
      hs 0 1 (by omega) (by omega), hs 0 2 (by omega) (by omega), hs 1 0 (by omega) (by omega),
      hs 1 1 (by omega) (by omega), hs 1 2 (by omega) (by omega), hs 2 0 (by omega) (by omega),
      hs 2 1 (by omega) (by omega), hs 2 2 (by omega) (by omega),
      Option.bind_eq_bind, Option.some_bind, Option.pure_def, bind_pure]
    decide
  unfold pixelValue
  rw [hk]
  rfl

/-- The worker of row 0 of such an image stores black at the cell `(0, 0)`. -/
theorem tall_threadfn (image result : List PPMPixel)
    (hwhite : ∀ i, i < 6 → image[i]? = some white)
    (hres : result.length = 3 * 4294967297) :
    ∃ res, threadfn { image := image, result := result, w := 3, h := 4294967297,
                      start := 0, size := 1 } = some res ∧
      res[0 * 3 + 0]? = some black := by
  have hidx : ∀ x, x < 3 → resultIndex 3 x 0 = 0 * 3 + x := by decide
  obtain ⟨res, hthr, _, hcell⟩ := threadfn_cells_of image result 3 4294967297 0 1
    (fun _ _ => black)
    (fun x y hx _ hy1 => by
      have hy : y = 0 := by omega
      rw [hy]
      exact tall_pixelValue image hwhite x hx)
    (fun x y hx _ hy1 => by
      have hy : y = 0 := by omega
      rw [hy]
      exact hidx x hx)
    hres (by decide)
  refine ⟨res, hthr, ?_⟩
  rw [hcell 0 0 (by decide) (by decide), if_pos ⟨by decide, by decide⟩]

/-- The samples of the specification for the target `(0, 0)` of such an image
whose last row is black: the row above row 0 is the last row. -/
theorem tall_sourceAt (image : List PPMPixel)
    (hwhite : ∀ i, i < 6 → image[i]? = some white)
    (hblack : ∀ i, 12884901888 ≤ i → i < 12884901891 → image[i]? = some black)
    (fx fy : Nat) (hfx : fx < 3) (hfy : fy < 3) :
    sourceAt image 3 4294967297 0 0 fx fy = if fy = 0 then black else white := by
  have hi : ∀ fx, fx < 3 → ∀ fy, fy < 3 →
      sourceIndex 3 4294967297 0 0 fx fy =
        (if fy = 0 then 12884901888 else (fy - 1) * 3) + (fx + 2) % 3 := by decide
  rw [sourceAt_eq_sourceIndex, hi fx hfx fy hfy, List.getD_eq_getElem?_getD]
  have hm : (fx + 2) % 3 < 3 := Nat.mod_lt _ (by decide)
  by_cases h0 : fy = 0
  · rw [if_pos h0, if_pos h0, hblack _ (by omega) (by omega)]
    rfl
  · rw [if_neg h0, if_neg h0, hwhite _ (by omega)]
    rfl

/-- The value of the specification for the red channel at `(0, 0)`. -/
theorem tall_kernelSum (image : List PPMPixel)
    (hwhite : ∀ i, i < 6 → image[i]? = some white)
    (hblack : ∀ i, 12884901888 ≤ i → i < 12884901891 → image[i]? = some black) :
    clamp_0_255 (∑ fx in Finset.range 3, ∑ fy in Finset.range 3,
      ((sourceAt image 3 4294967297 0 0 fx fy).r : Int) * K fx fy) = 255 := by
  have hs : ∀ fx fy, fx < 3 → fy < 3 →
      sourceAt image 3 4294967297 0 0 fx fy = if fy = 0 then black else white :=
    fun fx fy hfx hfy => tall_sourceAt image hwhite hblack fx fy hfx hfy
  simp only [Finset.sum_range_succ, Finset.sum_range_zero,
    hs 0 0 (by omega) (by omega), hs 0 1 (by omega) (by omega), hs 0 2 (by omega) (by omega),
    hs 1 0 (by omega) (by omega), hs 1 1 (by omega) (by omega), hs 1 2 (by omega) (by omega),
    hs 2 0 (by omega) (by omega), hs 2 1 (by omega) (by omega), hs 2 2 (by omega) (by omega)]
  decide

theorem tallImage_length : tallImage.length = 3 * 4294967297 := by
  unfold tallImage
  rw [List.length_map, List.length_range]

theorem tallImage_get (i : Nat) (hi : i < 3 * 4294967297) :
    tallImage[i]? = some (if i < 3 * 4294967296 then white else black) := by
  unfold tallImage
  rw [List.getElem?_map, List.getElem?_range hi, Option.map_some']

theorem tallImage_white (i : Nat) (hi : i < 6) : tallImage[i]? = some white := by
  rw [tallImage_get i (by omega), if_pos (by omega)]

theorem tallImage_black (i : Nat) (h0 : 12884901888 ≤ i) (h1 : i < 12884901891) :
    tallImage[i]? = some black := by
  rw [tallImage_get i (by omega), if_neg (by omega)]

/-- Counterexample to C1: in the image of width 3 and height `2 ^ 32 + 1` whose
last row is black and whose other rows are white, for the worker of row 0 and
the target `(0, 0)`: the row sampled above row 0 is row 0 (the wrapped row
`h - 1 = 2 ^ 32` is narrowed to `int`), `threadfn` stores `(0, 0, 0)` in the cell
0, and the value of the claim for the red channel is 255. -/
theorem tall_image_wrong_row :
    tallImage.length = 3 * 4294967297 ∧
    imagey 4294967297 0 0 = some 0 ∧
    (∃ res, threadfn { image := tallImage, result := tallImage, w := 3, h := 4294967297,
                       start := 0, size := 1 } = some res ∧
      res[0 * 3 + 0]? = some black) ∧
    clamp_0_255 (∑ fx in Finset.range 3, ∑ fy in Finset.range 3,
      ((sourceAt tallImage 3 4294967297 0 0 fx fy).r : Int) * K fx fy) = 255 ∧
    ¬ (∃ res px, threadfn { image := tallImage, result := tallImage, w := 3, h := 4294967297,
                            start := 0, size := 1 } = some res ∧
      res[0 * 3 + 0]? = some px ∧
      (px.r : Int) = clamp_0_255 (∑ fx in Finset.range 3, ∑ fy in Finset.range 3,
        ((sourceAt tallImage 3 4294967297 0 0 fx fy).r : Int) * K fx fy)) := by
  have hthr := tall_threadfn tallImage tallImage tallImage_white tallImage_length
  have hsum := tall_kernelSum tallImage tallImage_white tallImage_black
  refine ⟨tallImage_length, by decide, hthr, hsum, ?_⟩
  rintro ⟨res, px, h1, h2, h3⟩
  obtain ⟨res0, h4, h5⟩ := hthr
  rw [h4] at h1
  have he : res0 = res := Option.some.inj h1
  rw [he, h2] at h5
  have hpx : px = black := Option.some.inj h5
  rw [hsum, hpx] at h3
  revert h3
  decide

end ThreadedLaplacian
